import Mathlib

/-!
Shallow embedding of the Binance exchange adapter
(`src/exchange/wrappers/binance.js`) together with a verification of its
specification.  JavaScript numbers are modelled as exact rationals (the
idealisation under which the specification's arithmetic statements are made),
extended with `Infinity`, `-Infinity` and `NaN`; JavaScript strings are
modelled as `List Char`.  Fallible code returns `Option`/`Except`, and the
unbounded `while` loop of `getPrecision` is modelled with explicit fuel
(`none` = the loop has not terminated within the given number of iterations).
-/

namespace Binance

/-! ### Kernel-computable rational arithmetic

The `Rat` arithmetic of the standard library is `@[irreducible]`; the
operations below compute the same values through `Rat.divInt`, which the
kernel can evaluate, so that concrete runs of the embedded program can be
checked by `decide`.  Bridge lemmas (`qAdd_eq` etc., proved below) identify
them with the field operations of `ℚ`. -/

/-- Exact rational addition (kernel-computable). -/
def qAdd (a b : ℚ) : ℚ := Rat.divInt (a.num * b.den + b.num * a.den) ((a.den : ℤ) * b.den)

/-- Exact rational multiplication (kernel-computable). -/
def qMul (a b : ℚ) : ℚ := Rat.divInt (a.num * b.num) ((a.den : ℤ) * b.den)

/-- Exact rational division (kernel-computable); division by zero gives 0,
a case the embedding never relies on. -/
def qDiv (a b : ℚ) : ℚ := Rat.divInt (a.num * b.den) ((a.den : ℤ) * b.num)

/-- Exact rational negation (kernel-computable). -/
def qNeg (a : ℚ) : ℚ := Rat.divInt (-a.num) (a.den)

/-- The JavaScript `Math.round` on an exact rational: round half toward
positive infinity, i.e. the floor of `x + 1/2`. -/
def jsRound (x : ℚ) : ℤ := Rat.floor (qAdd x (mkRat 1 2))

/-! ### The JavaScript number domain

`JsVal` is a JavaScript number: an exact rational, one of the two infinities,
or `NaN`.  The arithmetic below follows IEEE-754 special-value rules
(`NaN` absorbs, `Infinity * 0 = NaN`, ...), with the rational case exact. -/

/-- A JavaScript number value. -/
inductive JsVal where
  | num (q : ℚ)
  | posInf
  | negInf
  | nan
deriving DecidableEq

/-- Sign-dependent infinity: the result of scaling `posInf` by a rational. -/
def infTimes (q : ℚ) : JsVal :=
  if q = 0 then .nan else if 0 < q then .posInf else .negInf

/-- JavaScript multiplication on number values. -/
def jsvMul : JsVal → JsVal → JsVal
  | .nan, _ => .nan
  | _, .nan => .nan
  | .num a, .num b => .num (qMul a b)
  | .num a, .posInf => infTimes a
  | .num a, .negInf => infTimes (qNeg a)
  | .posInf, .num b => infTimes b
  | .negInf, .num b => infTimes (qNeg b)
  | .posInf, .posInf => .posInf
  | .posInf, .negInf => .negInf
  | .negInf, .posInf => .negInf
  | .negInf, .negInf => .posInf

/-- JavaScript `Math.floor` on number values (identity on infinities and `NaN`). -/
def jsvFloor : JsVal → JsVal
  | .num a => .num ((Rat.floor a : ℤ) : ℚ)
  | v => v

/-- JavaScript division on number values (divisor cases actually reached by
the adapter: a positive finite power of ten). -/
def jsvDiv : JsVal → JsVal → JsVal
  | .nan, _ => .nan
  | _, .nan => .nan
  | .num a, .num b =>
      if b = 0 then (if a = 0 then .nan else if 0 < a then .posInf else .negInf)
      else .num (qDiv a b)
  | .num _, .posInf => .num 0
  | .num _, .negInf => .num 0
  | .posInf, .num b => if 0 ≤ b then .posInf else .negInf
  | .negInf, .num b => if 0 ≤ b then .negInf else .posInf
  | _, _ => .nan

/-! ### Characters, digit strings and decimal parsing -/

/-- Numeric value of a decimal digit character. -/
def digitVal (c : Char) : ℕ := c.toNat - 48

/-- Whether a character is a decimal digit `0`..`9`. -/
def isDigitCh (c : Char) : Bool := 48 ≤ c.toNat && c.toNat ≤ 57

/-- Value of a big-endian digit string (no validation; pair with `allDigits`). -/
def digitsToNatVal (cs : List Char) : ℕ := cs.foldl (fun a c => 10 * a + digitVal c) 0

/-- Whether every character of the list is a decimal digit. -/
def allDigits (cs : List Char) : Bool := cs.all isDigitCh

/-- Split a character list at every occurrence of the separator `c`
(the model of JavaScript `String.prototype.split` with a one-character
separator); always returns a non-empty list of fragments. -/
def splitOnChar (c : Char) : List Char → List (List Char)
  | [] => [[]]
  | x :: xs =>
    let r := splitOnChar c xs
    if x = c then [] :: r
    else
      match r with
      | [] => [[x]]
      | h :: t => (x :: h) :: t

/-- Little-endian base-10 digits of a natural number, by fueled recursion
(`digitsLE` supplies fuel `n`, which always suffices). -/
def digitsLEAux : ℕ → ℕ → List ℕ
  | 0, _ => []
  | _ + 1, 0 => []
  | fuel + 1, n + 1 => ((n + 1) % 10) :: digitsLEAux fuel ((n + 1) / 10)

/-- Little-endian base-10 digits of a natural number (`[]` for 0). -/
def digitsLE (n : ℕ) : List ℕ := digitsLEAux n n

/-- Big-endian decimal digit characters of a natural number (`[]` for 0). -/
def digitsBE (n : ℕ) : List Char := ((digitsLE n).map Nat.digitChar).reverse

/-- Remove the trailing factors of ten of a positive natural number:
`stripTensAux fuel m = (s, z)` with `m = s * 10 ^ z` once `fuel ≥ m`. -/
def stripTensAux : ℕ → ℕ → ℕ × ℕ
  | 0, m => (m, 0)
  | fuel + 1, m =>
    if m % 10 = 0 ∧ m ≠ 0 then
      let p := stripTensAux fuel (m / 10)
      (p.1, p.2 + 1)
    else (m, 0)

/-- Remove the trailing factors of ten of a natural number. -/
def stripTens (m : ℕ) : ℕ × ℕ := stripTensAux m m

/-- Search, starting at exponent `e` and for at most `fuel` candidates, for an
exponent that makes `q * 10 ^ e` an integer. -/
def minExpAux (q : ℚ) : ℕ → ℕ → Option ℕ
  | 0, _ => none
  | fuel + 1, e =>
    if (qMul q ((10 ^ e : ℕ) : ℚ)).den = 1 then some e else minExpAux q fuel (e + 1)

/-- The least exponent `e` with `q * 10 ^ e` an integer, when one at most
`q.den` exists (it always does when `q` is a terminating decimal). -/
def decExp (q : ℚ) : Option ℕ := minExpAux q (q.den + 1) 0

/-- Parse a non-empty all-digit string as a natural number. -/
def parseNatDigits (cs : List Char) : Option ℕ :=
  if cs ≠ [] ∧ allDigits cs then some (digitsToNatVal cs) else none

/-- Parse an optionally signed all-digit string as an integer (the model of
JavaScript number coercion on exponent strings such as `"+21"` or `"-7"`). -/
def parseSignedNat (cs : List Char) : Option ℤ :=
  match cs with
  | '-' :: rest => (parseNatDigits rest).map (fun n => -(n : ℤ))
  | '+' :: rest => (parseNatDigits rest).map (fun n => (n : ℤ))
  | _ => (parseNatDigits cs).map (fun n => (n : ℤ))

/-- Parse an unsigned decimal literal `digits [. digits]` (at least one digit
overall) as an exact rational. -/
def parseUnsigned (cs : List Char) : Option ℚ :=
  match splitOnChar '.' cs with
  | [i] =>
      if i ≠ [] ∧ allDigits i then some ((digitsToNatVal i : ℕ) : ℚ) else none
  | [i, f] =>
      if (i ≠ [] ∨ f ≠ []) ∧ allDigits i ∧ allDigits f then
        some (qAdd ((digitsToNatVal i : ℕ) : ℚ)
          (qDiv ((digitsToNatVal f : ℕ) : ℚ) ((10 ^ f.length : ℕ) : ℚ)))
      else none
  | _ => none

/-- The ECMAScript `ToNumber` coercion on a string, restricted to the string
shapes this adapter can produce: the empty string, the infinity literals, and
optionally signed plain decimal literals; anything else is `NaN`. -/
def jsToNumberChars (cs : List Char) : JsVal :=
  if cs = [] then .num 0
  else if cs = "Infinity".toList ∨ cs = "+Infinity".toList then .posInf
  else if cs = "-Infinity".toList then .negInf
  else if cs.head? = some '-' then
    match parseUnsigned (cs.drop 1) with
    | some q => .num (qNeg q)
    | none => .nan
  else if cs.head? = some '+' then
    match parseUnsigned (cs.drop 1) with
    | some q => .num q
    | none => .nan
  else
    match parseUnsigned cs with
    | some q => .num q
    | none => .nan

/-- JavaScript `parseFloat`, restricted to plain decimal literals (no
exponent part, which the balance strings of this adapter never carry):
an optional sign followed by `digits [. digits]`; a string with no leading
digits parses to `NaN`. -/
def parseFloatJs (cs : List Char) : JsVal :=
  match cs with
  | '-' :: rest => (match parseUnsigned rest with
      | some q => .num (qNeg q)
      | none => .nan)
  | '+' :: rest => (match parseUnsigned rest with
      | some q => .num q
      | none => .nan)
  | _ => (match parseUnsigned cs with
      | some q => .num q
      | none => .nan)

/-! ### ECMAScript number-to-string

`jsNumToString` is the ECMAScript `Number::toString(10)` algorithm on an
exact terminating decimal: write the value as `s * 10 ^ (n - k)` with `s` the
shortest digit sequence (`k` digits, no trailing zero unless `s` itself ends
the integer), then choose positional notation when `-6 < n ≤ 21` and
scientific notation (`d.ddde±x`) otherwise.  On round outputs this coincides
with `String(num)` of JavaScript under the exact-arithmetic idealisation. -/

/-- Layout step of the ECMAScript rendering: place the digit string of the
mantissa `s1` according to the decimal position `n = k + z - e` (`k` digits,
`z` stripped zeros, `e` the scaling exponent). -/
def renderDigits (s1 z e : ℕ) : List Char :=
  let ds := digitsBE s1
  let k : ℤ := (ds.length : ℤ)
  let n : ℤ := k + (z : ℤ) - (e : ℤ)
  if k ≤ n ∧ n ≤ 21 then
    ds ++ List.replicate (n - k).toNat '0'
  else if 0 < n ∧ n ≤ 21 then
    ds.take n.toNat ++ '.' :: ds.drop n.toNat
  else if -6 < n ∧ n ≤ 0 then
    '0' :: '.' :: (List.replicate (-n).toNat '0' ++ ds)
  else
    ds.take 1 ++ (if 1 < ds.length then '.' :: ds.drop 1 else [])
      ++ 'e' :: (if n - 1 < 0 then '-' else '+') :: digitsBE (n - 1).natAbs

/-- Decimal rendering of a positive terminating decimal, ECMAScript layout. -/
def posToChars (q : ℚ) : List Char :=
  match decExp q with
  | none => ['?']
  | some e =>
    let s0 : ℕ := (qMul q ((10 ^ e : ℕ) : ℚ)).num.toNat
    renderDigits (stripTens s0).1 (stripTens s0).2 e

/-- ECMAScript `Number::toString(10)` on an exact rational. -/
def jsNumToString (q : ℚ) : List Char :=
  if q = 0 then ['0']
  else if q < 0 then '-' :: posToChars (qNeg q)
  else posToChars q

/-- JavaScript `String(v)` on a number value. -/
def jsValToChars : JsVal → List Char
  | .num q => jsNumToString q
  | .posInf => "Infinity".toList
  | .negInf => "-Infinity".toList
  | .nan => "NaN".toList

/-! ### scientificToDecimal (binance.js lines 215-238)

The gist-derived converter: test the string form of the number against
`/\d+\.?\d*e[\+\-]*\d+/i` (on `Number::toString` outputs the pattern matches
exactly when the rendering is scientific, i.e. contains an `e`), split on
`e`, and rebuild a plain decimal string.  In the positive-exponent branch the
source executes `l = l - dec.length` where `l` was declared `const`: when the
coefficient has a non-empty decimal part this throws a `TypeError`, modelled
here as `none`. -/

/-- Reconstruction step of `scientificToDecimal` on the two parts produced by
splitting at `e` (`p0` = coefficient text, `ex` = exponent text). -/
def sciReconstruct (p0 ex : List Char) : Option (List Char) :=
  match parseSignedNat ex with
  | none => none
  | some ei =>
    let l : ℕ := ei.natAbs
    let coeffArr := splitOnChar '.' p0
    if ei < 0 then
      some ('0' :: '.' :: (List.replicate (l - 1) '0' ++ coeffArr.flatten))
    else
      match (coeffArr.drop 1).head? with
      | some dec =>
          if dec = [] then some (coeffArr.flatten ++ List.replicate l '0')
          else none
      | none => some (coeffArr.flatten ++ List.replicate l '0')

/-- Behaviour of `scientificToDecimal` on an already-rendered string `str`: pass plain
renderings through unchanged, split scientific renderings at `e`
(`parts[0]` and `parts.pop()` of the source) and rebuild them. -/
def sciOnString (str : List Char) : Option (List Char) :=
  if str.contains 'e' then
    match splitOnChar 'e' str with
    | [] => none
    | p0 :: rest =>
      match rest.getLast? with
      | none => none
      | some ex => sciReconstruct p0 ex
  else some str

/-- The `scientificToDecimal` conversion of binance.js on a number value (`str` is the
`String(num)` rendering of the source); `none` models the `TypeError` thrown
by the assignment to the constant `l`. -/
def scientificToDecimal (v : JsVal) : Option (List Char) :=
  sciOnString (jsValToChars v)

/-! ### Error classifier (binance.js lines 40-89) -/

/-- The fixed list of transient-error signatures (binance.js lines 40-50). -/
def recoverableErrors : List String :=
  [ "SOCKETTIMEDOUT",
    "TIMEDOUT",
    "CONNRESET",
    "CONNREFUSED",
    "NOTFOUND",
    "Error -1021",
    "Response code 429",
    "Response code 5",
    "ETIMEDOUT" ]

/-- Case-sensitive substring test, JavaScript `str.includes(sub)`. -/
def strIncludes (str sub : String) : Bool := sub.toList.IsInfix str.toList

/-- The `includes` helper of binance.js (lines 52-57): is some signature of
the list a substring of `str`?  (The source first checks that `str` is a
string; every message reaching this model is one.) -/
def includes (str : String) (list : List String) : Bool :=
  list.any (fun item => strIncludes str item)

/-- An API response body, shape `{code, msg}`; `code` is absent (`none`) or a
numeric code, and the body is treated as an error exactly when the code is
truthy (present and non-zero). -/
structure RespBody where
  code : Option ℤ
  msg : String
deriving DecidableEq

/-- The error argument handed to a response handler: JavaScript errors are
either plain strings or `Error` objects carrying a message. -/
inductive ErrArg where
  | strE (s : String)
  | objE (message : String)
deriving DecidableEq

/-- The message text of an error argument (the string case models
`new Error(error)` of line 77). -/
def errMessage : ErrArg → String
  | .strE s => s
  | .objE m => m

/-- An error as surfaced by `handleResponse`: the original message plus the
`notFatal` retryability tag (absent in the source = `false` here). -/
structure HandledError where
  message : String
  notFatal : Bool
deriving DecidableEq

/-- What a `handleResponse` callback surfaces: an error, or a success with
the (possibly absent) body. -/
inductive HandleOutcome where
  | err (e : HandledError)
  | ok (body : Option RespBody)
deriving DecidableEq

/-- The `handleResponse` wrapper of binance.js (lines 69-89).  A body with a truthy
`code` replaces the error by `Error ${code}: ${msg}`; an error is surfaced
with `notFatal` set exactly when its message contains a recoverable
signature; otherwise the call succeeds with the body (line 87 passes the
error through `processError`, which returns `undefined` for an `undefined`
error, line 60). -/
def handleResponse (error : Option ErrArg) (body : Option RespBody) : HandleOutcome :=
  let error1 : Option ErrArg :=
    match body with
    | some b =>
      match b.code with
      | some c => if c ≠ 0 then some (.objE ("Error " ++ toString c ++ ": " ++ b.msg)) else error
      | none => error
    | none => error
  match error1 with
  | some e => .err { message := errMessage e, notFatal := includes (errMessage e) recoverableErrors }
  | none => .ok body

/-! ### Precision and rounding engine (binance.js lines 190-246) -/

/-- The body of the `while` loop of `getPrecision` (line 193), with fuel:
`e` is the current power-of-ten scale, `p` the digit count; the loop stops
when `Math.round(tickSize * e) / e === tickSize`, and `none` means the loop
has not stopped within `fuel` iterations (the source has no such bound and
would spin forever). -/
def getPrecisionLoop : ℕ → ℚ → ℚ → ℕ → Option ℕ
  | 0, _, _, _ => none
  | fuel + 1, tickSize, e, p =>
    if qDiv ((jsRound (qMul tickSize e) : ℤ) : ℚ) e = tickSize then some p
    else getPrecisionLoop fuel tickSize (qMul e 10) (p + 1)

/-- The `getPrecision` function of binance.js (lines 190-195): 0 for non-finite input,
otherwise the digit-counting loop started at `e = 1`, `p = 0`. -/
def getPrecision (fuel : ℕ) : JsVal → Option ℕ
  | .num q => getPrecisionLoop fuel q 1 0
  | _ => some 0

/-- The amount argument of `round`: a number, or (as in a repeated
application of `round` to its own output) a string that the arithmetic
coerces with `ToNumber`. -/
inductive JsInput where
  | v (x : JsVal)
  | s (cs : List Char)

/-- Coercion of a `round` argument to a number (`amount *= precision`
applies `ToNumber` to a string argument). -/
def jsToNumber : JsInput → JsVal
  | .v x => x
  | .s cs => jsToNumberChars cs

/-- The `round` function of binance.js (lines 197-212): scale by `10 ^ precision`
(`Number.isInteger(t)` always holds for the loop counter `t`, so the initial
`precision = 100000000` is always overwritten), floor, unscale, then render
through `scientificToDecimal`.  The outer `none` models a non-terminating
`getPrecision`; the inner `none` models the `TypeError` thrown inside
`scientificToDecimal`. -/
def round (fuel : ℕ) (amount : JsInput) (tickSize : JsVal) : Option (Option (List Char)) :=
  match getPrecision fuel tickSize with
  | none => none
  | some t =>
    let precision : JsVal := .num ((10 ^ t : ℕ) : ℚ)
    let a1 := jsvMul (jsToNumber amount) precision
    let a2 := jsvFloor a1
    let a3 := jsvDiv a2 precision
    some (scientificToDecimal a3)

/-! ### getPortfolio (binance.js lines 131-159) -/

/-- One entry of the account-balance response. -/
structure Balance where
  asset : String
  free : String
deriving DecidableEq

/-- The runtime exceptions the portfolio handler can throw. -/
inductive JsException where
  | typeError (msg : String)
deriving DecidableEq

/-- Find the balance entry of a given asset (`_.find`, `none` = `undefined`). -/
def findBalance (balances : List Balance) (name : String) : Option Balance :=
  balances.find? (fun b => b.asset == name)

/-- The `setBalance` callback of `getPortfolio` (lines 132-155).  Reading
`.free` of a missing (`undefined`) entry throws a `TypeError`; and because
`assetAmount`/`currencyAmount` are declared `const`, the normalisation
branches `assetAmount = 0` / `currencyAmount = 0` (lines 141-147) throw a
`TypeError` whenever they are reached, i.e. whenever the parsed amount is
`NaN` (`_.isNumber` holds of every number, `NaN` included, so only the
`_.isNaN` disjunct can fire). -/
def setBalance (asset currency : String) (balances : List Balance) :
    Except JsException (List (String × JsVal)) :=
  match findBalance balances asset with
  | none => .error (.typeError "Cannot read property free of undefined")
  | some ba =>
    let assetAmount := parseFloatJs ba.free.toList
    match findBalance balances currency with
    | none => .error (.typeError "Cannot read property free of undefined")
    | some bc =>
      let currencyAmount := parseFloatJs bc.free.toList
      if assetAmount = .nan then .error (.typeError "Assignment to constant variable")
      else if currencyAmount = .nan then .error (.typeError "Assignment to constant variable")
      else .ok [(asset, assetAmount), (currency, currencyAmount)]

/-! ### getOrder fill aggregation (binance.js lines 291-354) -/

/-- One account-trade (fill) record, numeric fields already coerced. -/
structure Fill where
  orderId : String
  price : ℚ
  qty : ℚ
  commission : ℚ
  commissionAsset : String
  time : ℤ
deriving DecidableEq

/-- The aggregation state of the `_.each` loop of `getOrder`. -/
structure OrderAgg where
  price : ℚ
  amount : ℚ
  date : ℤ
  fees : List (String × ℚ)
deriving DecidableEq

/-- Fee accumulation `fees[asset] += c` with JavaScript object semantics: add when the key is
present, insert otherwise. -/
def feesUpdate (fees : List (String × ℚ)) (asset : String) (c : ℚ) : List (String × ℚ) :=
  if (fees.find? (fun p => p.1 == asset)).isSome then
    fees.map (fun p => if p.1 == asset then (p.1, qAdd p.2 c) else p)
  else fees ++ [(asset, c)]

/-- One step of the fill aggregation (lines 310-319): incremental weighted
average price, running amount, and per-currency fee totals. -/
def aggStep (st : OrderAgg) (t : Fill) : OrderAgg :=
  { price := qDiv (qAdd (qMul st.price st.amount) (qMul t.price t.qty)) (qAdd t.qty st.amount)
    amount := qAdd st.amount t.qty
    date := t.time
    fees := feesUpdate st.fees t.commissionAsset t.commission }

/-- The fill-aggregation part of the `get` callback of `getOrder`
(lines 292-319): keep the fills of the requested order, fail with
`Trades not found` when there are none, and fold the aggregation step over
them starting from price 0, amount 0, no fees.  (The `feePercent`
approximation of lines 321-341 is outside the aggregation this models.) -/
def getOrderAggregate (order : String) (data : List Fill) : Except String OrderAgg :=
  let trades := data.filter (fun t => t.orderId == order)
  if trades.isEmpty then .error "Trades not found"
  else .ok (trades.foldl aggStep { price := 0, amount := 0, date := 0, fees := [] })

/-! ### checkOrder (binance.js lines 364-399) -/

/-- The raw order-query response: a status string and the executed quantity
as the API returns it (a string). -/
structure QueryOrderData where
  status : String
  executedQty : String
deriving DecidableEq

/-- What the `check` callback produces: a normalized result, or the thrown
status string for an unrecognized status (line 389 `throw status`). -/
inductive CheckOutcome where
  | res (executed opn : Bool) (filledAmount : Option JsVal)
  | thrown (status : String)
deriving DecidableEq

/-- The `check` callback of `checkOrder` (lines 366-390): CANCELED, REJECTED
and EXPIRED are closed and unexecuted; NEW and PARTIALLY_FILLED are open with
`filledAmount` the coerced `executedQty`; FILLED is executed; anything else
is thrown. -/
def checkOrderStatus (d : QueryOrderData) : CheckOutcome :=
  if d.status = "CANCELED" ∨ d.status = "REJECTED" ∨ d.status = "EXPIRED" then
    .res false false none
  else if d.status = "NEW" ∨ d.status = "PARTIALLY_FILLED" then
    .res false true (some (jsToNumberChars d.executedQty.toList))
  else if d.status = "FILLED" then
    .res true false none
  else .thrown d.status

/-! ### cancelOrder (binance.js lines 401-421) -/

/-- The `cancel` callback of `cancelOrder` (lines 403-412): a failure whose
message contains `UNKNOWN_ORDER` means the order was already filled and is
surfaced as the successful result `true`; any other failure is surfaced as
the error itself; an errorless cancellation surfaces `false`. -/
def cancelCallback (err : Option HandledError) : Except HandledError Bool :=
  match err with
  | some e => if strIncludes e.message "UNKNOWN_ORDER" then .ok true else .error e
  | none => .ok false

end Binance

namespace Binance

/-! ## Bridge lemmas: the kernel-computable operations are the field
operations of `ℚ` -/

/-- The denominator of a rational, as a nonzero rational. -/
theorem den_cast_ne_zero (a : ℚ) : ((a.den : ℚ)) ≠ 0 :=
  Nat.cast_ne_zero.mpr a.den_nz

/-- Multiplying a rational by its denominator gives its numerator. -/
theorem mul_den_eq_num (a : ℚ) : (a.num : ℚ) = a * a.den :=
  (div_eq_iff (den_cast_ne_zero a)).mp (Rat.num_div_den a)

/-- Lemma: `qAdd` is rational addition. -/
theorem qAdd_eq (a b : ℚ) : qAdd a b = a + b := by
  rw [qAdd, Rat.divInt_eq_div]
  push_cast
  rw [div_eq_iff (mul_ne_zero (den_cast_ne_zero a) (den_cast_ne_zero b))]
  rw [mul_den_eq_num, mul_den_eq_num]
  ring

/-- Lemma: `qMul` is rational multiplication. -/
theorem qMul_eq (a b : ℚ) : qMul a b = a * b := by
  rw [qMul, Rat.divInt_eq_div]
  push_cast
  rw [div_eq_iff (mul_ne_zero (den_cast_ne_zero a) (den_cast_ne_zero b))]
  rw [mul_den_eq_num, mul_den_eq_num]
  ring

/-- Lemma: `qNeg` is rational negation. -/
theorem qNeg_eq (a : ℚ) : qNeg a = -a := by
  rw [qNeg, Rat.divInt_eq_div]
  push_cast
  rw [div_eq_iff (den_cast_ne_zero a)]
  rw [mul_den_eq_num]
  ring

/-- Lemma: `qDiv` is rational division (both sides are 0 for a zero divisor). -/
theorem qDiv_eq (a b : ℚ) : qDiv a b = a / b := by
  by_cases hb : b = 0
  · subst hb
    simp [qDiv, Rat.divInt_eq_div]
  · have hbn : (b.num : ℚ) ≠ 0 := by
      simpa [Rat.num_eq_zero] using hb
    rw [qDiv, Rat.divInt_eq_div]
    push_cast
    rw [div_eq_div_iff (mul_ne_zero (den_cast_ne_zero a) hbn) ?_]
    · rw [mul_den_eq_num, mul_den_eq_num]
      ring
    · exact hb

/-- The `Batteries` floor is the floor of `ℚ`. -/
theorem ratFloor_eq (a : ℚ) : Rat.floor a = ⌊a⌋ := by
  rw [Rat.floor_def' a, Rat.floor_def]

/-- Lemma: `jsRound` is the floor of `x + 1/2`. -/
theorem jsRound_eq (x : ℚ) : jsRound x = ⌊x + 1 / 2⌋ := by
  have h2 : (mkRat 1 2 : ℚ) = 1 / 2 := by
    rw [Rat.mkRat_eq_divInt, Rat.divInt_eq_div]
    norm_num
  rw [jsRound, qAdd_eq, h2, ratFloor_eq]

/-- A natural-power cast used throughout the embedding. -/
theorem ten_pow_cast (t : ℕ) : (((10 ^ t : ℕ) : ℚ)) = (10 : ℚ) ^ t := by
  push_cast
  ring

/-- Powers of ten do not vanish in `ℚ`. -/
theorem ten_pow_ne_zero (t : ℕ) : ((10 : ℚ) ^ t) ≠ 0 :=
  pow_ne_zero t (by norm_num)

end Binance

namespace Binance

/-! ## Digit strings -/

/-- Value of the digit character of a digit. -/
theorem digitVal_digitChar {d : ℕ} (h : d < 10) : digitVal (Nat.digitChar d) = d := by
  interval_cases d <;> rfl

/-- Digit characters of digits are decimal digits. -/
theorem isDigitCh_digitChar {d : ℕ} (h : d < 10) : isDigitCh (Nat.digitChar d) = true := by
  interval_cases d <;> rfl

/-- The fueled digit expansion evaluates back to its input. -/
theorem ofDigits_digitsLEAux :
    ∀ (fuel n : ℕ), n ≤ fuel → Nat.ofDigits 10 (digitsLEAux fuel n) = n := by
  intro fuel
  induction fuel with
  | zero => intro n hn; interval_cases n; rfl
  | succ f ih =>
    intro n hn
    match n with
    | 0 => rfl
    | m + 1 =>
      have hdiv : (m + 1) / 10 ≤ f := by
        have h1 : (m + 1) / 10 < m + 1 := Nat.div_lt_self (Nat.succ_pos m) (by norm_num)
        omega
      show Nat.ofDigits 10 (((m + 1) % 10) :: digitsLEAux f ((m + 1) / 10)) = m + 1
      rw [Nat.ofDigits_cons, ih _ hdiv]
      omega

/-- The fueled digit expansion produces digits below ten. -/
theorem digitsLEAux_lt :
    ∀ (fuel n : ℕ), ∀ d ∈ digitsLEAux fuel n, d < 10 := by
  intro fuel
  induction fuel with
  | zero => intro n d hd; simp [digitsLEAux] at hd
  | succ f ih =>
    intro n d hd
    match n with
    | 0 => simp [digitsLEAux] at hd
    | m + 1 =>
      rcases List.mem_cons.mp hd with h | h
      · subst h; exact Nat.mod_lt _ (by norm_num)
      · exact ih _ d h

/-- The digit expansion evaluates back to its input. -/
theorem ofDigits_digitsLE (n : ℕ) : Nat.ofDigits 10 (digitsLE n) = n :=
  ofDigits_digitsLEAux n n le_rfl

/-- Digits of the digit expansion are below ten. -/
theorem digitsLE_lt (n : ℕ) : ∀ d ∈ digitsLE n, d < 10 :=
  digitsLEAux_lt n n

/-- A positive number has a non-empty digit expansion. -/
theorem digitsLE_ne_nil {n : ℕ} (h : n ≠ 0) : digitsLE n ≠ [] := by
  intro hnil
  have := ofDigits_digitsLE n
  rw [hnil] at this
  simp [Nat.ofDigits] at this
  omega

/-- A positive number has a non-empty digit string. -/
theorem digitsBE_ne_nil {n : ℕ} (h : n ≠ 0) : digitsBE n ≠ [] := by
  intro hnil
  apply digitsLE_ne_nil h
  have h1 : ((digitsLE n).map Nat.digitChar) = [] := by
    have := congrArg List.reverse hnil
    simpa [digitsBE] using this
  simpa using h1

/-- Folding the digit accumulator from an arbitrary seed. -/
theorem foldl_digit_acc (cs : List Char) :
    ∀ a : ℕ, List.foldl (fun x c => 10 * x + digitVal c) a cs
      = a * 10 ^ cs.length + digitsToNatVal cs := by
  induction cs with
  | nil => intro a; simp [digitsToNatVal]
  | cons c cs ih =>
    intro a
    show List.foldl _ (10 * a + digitVal c) cs = _
    rw [ih (10 * a + digitVal c)]
    have h0 : digitsToNatVal (c :: cs) = digitVal c * 10 ^ cs.length + digitsToNatVal cs := by
      show List.foldl _ (10 * 0 + digitVal c) cs = _
      rw [ih (10 * 0 + digitVal c)]
      ring_nf
    rw [h0]
    simp [List.length_cons]
    ring

/-- Value of a concatenation of digit strings. -/
theorem digitsToNatVal_append (xs ys : List Char) :
    digitsToNatVal (xs ++ ys) = digitsToNatVal xs * 10 ^ ys.length + digitsToNatVal ys := by
  show List.foldl _ 0 (xs ++ ys) = _
  rw [List.foldl_append]
  exact foldl_digit_acc ys (List.foldl _ 0 xs)

/-- A run of zero characters has value zero. -/
theorem digitsToNatVal_replicate_zero (z : ℕ) :
    digitsToNatVal (List.replicate z '0') = 0 := by
  induction z with
  | zero => rfl
  | succ m ih =>
    show List.foldl _ (10 * 0 + digitVal '0') (List.replicate m '0') = 0
    have : (10 * 0 + digitVal '0') = 0 := by rfl
    rw [this]
    exact ih

/-- The digit string of `n` evaluates to `n`. -/
theorem digitsToNatVal_digitsBE (n : ℕ) : digitsToNatVal (digitsBE n) = n := by
  show List.foldl _ 0 (((digitsLE n).map Nat.digitChar).reverse) = n
  rw [List.foldl_reverse]
  rw [List.foldr_map]
  have key : ∀ L : List ℕ, (∀ d ∈ L, d < 10) →
      List.foldr (fun d acc => 10 * acc + digitVal (Nat.digitChar d)) 0 L
        = Nat.ofDigits 10 L := by
    intro L
    induction L with
    | nil => intro _; simp [Nat.ofDigits]
    | cons d L ih =>
      intro hL
      show 10 * (List.foldr _ 0 L) + digitVal (Nat.digitChar d) = _
      rw [ih (fun x hx => hL x (List.mem_cons_of_mem d hx))]
      rw [Nat.ofDigits_cons]
      rw [digitVal_digitChar (hL d (List.mem_cons_self d L))]
      omega
  rw [key (digitsLE n) (digitsLE_lt n)]
  exact_mod_cast ofDigits_digitsLE n

/-- The digit string of `n` consists of digits. -/
theorem allDigits_digitsBE (n : ℕ) : allDigits (digitsBE n) = true := by
  rw [allDigits, List.all_eq_true]
  intro c hc
  rw [digitsBE] at hc
  rw [List.mem_reverse, List.mem_map] at hc
  obtain ⟨d, hd, rfl⟩ := hc
  exact isDigitCh_digitChar (digitsLE_lt n d hd)

/-- Digit-ness distributes over concatenation. -/
theorem allDigits_append (xs ys : List Char) :
    allDigits (xs ++ ys) = (allDigits xs && allDigits ys) := by
  simp [allDigits]

/-- A run of zeros consists of digits. -/
theorem allDigits_replicate_zero (z : ℕ) : allDigits (List.replicate z '0') = true := by
  rw [allDigits, List.all_eq_true]
  intro c hc
  rw [List.mem_replicate] at hc
  rw [hc.2]
  rfl

/-- Digit-ness restricts to prefixes. -/
theorem allDigits_take (i : ℕ) (cs : List Char) (h : allDigits cs = true) :
    allDigits (cs.take i) = true := by
  rw [allDigits, List.all_eq_true] at h ⊢
  exact fun c hc => h c (List.take_subset i cs hc)

/-- Digit-ness restricts to suffixes. -/
theorem allDigits_drop (i : ℕ) (cs : List Char) (h : allDigits cs = true) :
    allDigits (cs.drop i) = true := by
  rw [allDigits, List.all_eq_true] at h ⊢
  exact fun c hc => h c (List.drop_subset i cs hc)

/-- A non-digit character does not occur in a digit string. -/
theorem notMem_of_allDigits {cs : List Char} {c : Char}
    (h : allDigits cs = true) (hc : isDigitCh c = false) : c ∉ cs := by
  intro hmem
  rw [allDigits, List.all_eq_true] at h
  rw [h c hmem] at hc
  simp at hc

end Binance

namespace Binance

/-! ## splitOnChar -/

/-- Splitting never produces the empty fragment list. -/
theorem splitOnChar_ne_nil (c : Char) (cs : List Char) : splitOnChar c cs ≠ [] := by
  cases cs with
  | nil => simp [splitOnChar]
  | cons x xs =>
    rw [splitOnChar]
    by_cases hx : x = c
    · simp [hx]
    · simp only [if_neg hx]
      cases splitOnChar c xs with
      | nil => simp
      | cons h t => simp

/-- A list without the separator splits into a single fragment. -/
theorem splitOnChar_of_not_mem {c : Char} {cs : List Char} (h : c ∉ cs) :
    splitOnChar c cs = [cs] := by
  induction cs with
  | nil => rfl
  | cons x xs ih =>
    have hx : x ≠ c := fun hxc => h (hxc ▸ List.mem_cons_self x xs)
    have hxs : c ∉ xs := fun hmem => h (List.mem_cons_of_mem x hmem)
    rw [splitOnChar]
    simp only [if_neg hx, ih hxs]

/-- Splitting at the first separator occurrence. -/
theorem splitOnChar_append_cons {c : Char} {xs : List Char} (h : c ∉ xs) (ys : List Char) :
    splitOnChar c (xs ++ c :: ys) = xs :: splitOnChar c ys := by
  induction xs with
  | nil => simp [splitOnChar]
  | cons x xs ih =>
    have hx : x ≠ c := fun hxc => h (hxc ▸ List.mem_cons_self x xs)
    have hxs : c ∉ xs := fun hmem => h (List.mem_cons_of_mem x hmem)
    show splitOnChar c (x :: (xs ++ c :: ys)) = _
    rw [splitOnChar]
    simp only [if_neg hx, ih hxs]

/-- Bool-level membership test agrees with membership. -/
theorem contains_eq_false_iff (cs : List Char) (c : Char) :
    cs.contains c = false ↔ c ∉ cs := by
  simp [List.contains, List.elem_eq_mem]

/-! ## stripTens -/

/-- The fueled strip of trailing tens is a factorisation. -/
theorem stripTensAux_spec :
    ∀ (fuel m : ℕ), m ≤ fuel →
      (stripTensAux fuel m).1 * 10 ^ (stripTensAux fuel m).2 = m := by
  intro fuel
  induction fuel with
  | zero =>
    intro m hm
    interval_cases m
    rfl
  | succ f ih =>
    intro m hm
    rw [stripTensAux]
    by_cases hc : m % 10 = 0 ∧ m ≠ 0
    · simp only [if_pos hc]
      have hlt : m / 10 < m := Nat.div_lt_self (Nat.pos_of_ne_zero hc.2) (by norm_num)
      have hle : m / 10 ≤ f := by omega
      have hrec := ih (m / 10) hle
      show (stripTensAux f (m / 10)).1 * 10 ^ ((stripTensAux f (m / 10)).2 + 1) = m
      rw [pow_succ, ← mul_assoc, hrec]
      omega
    · simp only [if_neg hc]
      rw [pow_zero, mul_one]

/-- Lemma: `stripTens` is a factorisation: `m = s * 10 ^ z`. -/
theorem stripTens_spec (m : ℕ) : (stripTens m).1 * 10 ^ (stripTens m).2 = m :=
  stripTensAux_spec m m le_rfl

/-- The stripped mantissa of a positive number is positive. -/
theorem stripTens_fst_ne_zero {m : ℕ} (h : m ≠ 0) : (stripTens m).1 ≠ 0 := by
  intro h0
  apply h
  rw [← stripTens_spec m, h0, zero_mul]

/-! ## The integrality search -/

/-- Whatever exponent the search returns makes the scaled value an integer. -/
theorem minExpAux_some {q : ℚ} :
    ∀ (fuel e0 e : ℕ), minExpAux q fuel e0 = some e → (qMul q ((10 ^ e : ℕ) : ℚ)).den = 1 := by
  intro fuel
  induction fuel with
  | zero => intro e0 e h; simp [minExpAux] at h
  | succ f ih =>
    intro e0 e h
    rw [minExpAux] at h
    by_cases hc : (qMul q ((10 ^ e0 : ℕ) : ℚ)).den = 1
    · rw [if_pos hc] at h
      cases h
      exact hc
    · rw [if_neg hc] at h
      exact ih (e0 + 1) e h

/-- The search succeeds as soon as fuel covers a witness exponent. -/
theorem minExpAux_isSome {q : ℚ} :
    ∀ (d fuel e0 : ℕ), (qMul q ((10 ^ (e0 + d) : ℕ) : ℚ)).den = 1 → d < fuel →
      (minExpAux q fuel e0).isSome := by
  intro d
  induction d with
  | zero =>
    intro fuel e0 hw hf
    match fuel, hf with
    | f + 1, _ =>
      rw [minExpAux]
      rw [Nat.add_zero] at hw
      rw [if_pos hw]
      rfl
  | succ d ih =>
    intro fuel e0 hw hf
    match fuel, hf with
    | f + 1, _ =>
      rw [minExpAux]
      by_cases hc : (qMul q ((10 ^ e0 : ℕ) : ℚ)).den = 1
      · rw [if_pos hc]; rfl
      · rw [if_neg hc]
        apply ih f (e0 + 1) _ (by omega)
        have : e0 + 1 + d = e0 + (d + 1) := by omega
        rw [this]
        exact hw

/-- A divisor of a power of ten divides the power of ten of its own size. -/
theorem dvd_ten_pow_self :
    ∀ d : ℕ, (∃ T, d ∣ 10 ^ T) → d ∣ 10 ^ d := by
  intro d
  induction d using Nat.strong_induction_on with
  | _ d ih =>
    intro ⟨T, hT⟩
    match d with
    | 0 =>
      exfalso
      have := Nat.eq_zero_of_zero_dvd hT
      exact absurd this (pow_ne_zero T (by norm_num))
    | 1 => exact one_dvd _
    | d + 2 =>
      set m : ℕ := d + 2 with hm
      have hm1 : m ≠ 1 := by omega
      have hmpos : 2 ≤ m := by omega
      have hp : (m.minFac).Prime := Nat.minFac_prime hm1
      have hpd : m.minFac ∣ m := Nat.minFac_dvd m
      have hp10 : m.minFac ∣ 10 := hp.dvd_of_dvd_pow (hpd.trans hT)
      have hq : m / m.minFac ∣ 10 ^ T := (Nat.div_dvd_of_dvd hpd).trans hT
      have hlt : m / m.minFac < m := Nat.div_lt_self (by omega) hp.two_le
      have ihq : m / m.minFac ∣ 10 ^ (m / m.minFac) := ih _ hlt ⟨T, hq⟩
      have hfac : m = m.minFac * (m / m.minFac) := (Nat.mul_div_cancel' hpd).symm
      calc m = m.minFac * (m / m.minFac) := hfac
      _ ∣ 10 * 10 ^ (m / m.minFac) := mul_dvd_mul hp10 ihq
      _ = 10 ^ (m / m.minFac + 1) := by rw [pow_succ]; ring
      _ ∣ 10 ^ m := pow_dvd_pow 10 (by
          have : m / m.minFac < m := hlt
          omega)

/-- The decimal-exponent search succeeds on every terminating decimal. -/
theorem decExp_isSome {q : ℚ} (T : ℕ) (hT : q.den ∣ 10 ^ T) : (decExp q).isSome := by
  have hden : q.den ∣ 10 ^ q.den := dvd_ten_pow_self q.den ⟨T, hT⟩
  apply minExpAux_isSome q.den (q.den + 1) 0 _ (by omega)
  rw [Nat.zero_add]
  obtain ⟨c, hc⟩ := hden
  have hden0 : ((q.den : ℚ)) ≠ 0 := den_cast_ne_zero q
  have hval : qMul q ((10 ^ q.den : ℕ) : ℚ) = ((q.num * c : ℤ) : ℚ) := by
    rw [qMul_eq]
    have h10 : ((10 ^ q.den : ℕ) : ℚ) = ((q.den : ℚ)) * ((c : ℚ)) := by
      rw [hc]
      push_cast
      ring
    rw [h10, ← mul_assoc, mul_comm q _, mul_comm q.den.cast q, ← mul_den_eq_num]
    push_cast
    ring
  rw [hval]
  exact Rat.den_intCast _

end Binance

namespace Binance

/-! ## Parsing the string shapes produced by the renderer -/

/-- The empty string is not a decimal literal. -/
theorem parseUnsigned_nil : parseUnsigned [] = none := by rfl

/-- An all-digit non-empty string parses to its digit value. -/
theorem parseUnsigned_digits {cs : List Char} (h1 : cs ≠ []) (h2 : allDigits cs = true) :
    parseUnsigned cs = some ((digitsToNatVal cs : ℕ) : ℚ) := by
  have hdot : '.' ∉ cs := notMem_of_allDigits h2 (by decide)
  rw [parseUnsigned, splitOnChar_of_not_mem hdot]
  simp [h1, h2]

/-- A digit string with one decimal point parses to the two-part value. -/
theorem parseUnsigned_point {i f : List Char} (hi : allDigits i = true)
    (hf : allDigits f = true) (hne : i ≠ [] ∨ f ≠ []) :
    parseUnsigned (i ++ '.' :: f)
      = some (qAdd ((digitsToNatVal i : ℕ) : ℚ)
          (qDiv ((digitsToNatVal f : ℕ) : ℚ) ((10 ^ f.length : ℕ) : ℚ))) := by
  have hdi : '.' ∉ i := notMem_of_allDigits hi (by decide)
  have hdf : '.' ∉ f := notMem_of_allDigits hf (by decide)
  rw [parseUnsigned, splitOnChar_append_cons hdi, splitOnChar_of_not_mem hdf]
  simp [hi, hf, hne]

/-- A string led by a character that is neither a digit nor the decimal point
is not a decimal literal. -/
theorem parseUnsigned_cons_notDigit {c : Char} (hc : isDigitCh c = false) (hdot : c ≠ '.')
    (cs : List Char) : parseUnsigned (c :: cs) = none := by
  rw [parseUnsigned]
  have hsplit : splitOnChar '.' (c :: cs)
      = (c :: (splitOnChar '.' cs).headI) :: (splitOnChar '.' cs).tail := by
    rw [splitOnChar]
    simp only [if_neg hdot]
    cases hr : splitOnChar '.' cs with
    | nil => exact absurd hr (splitOnChar_ne_nil '.' cs)
    | cons h t => rfl
  rw [hsplit]
  have hall : allDigits (c :: (splitOnChar '.' cs).headI) = false := by
    simp [allDigits, hc]
  cases ht : (splitOnChar '.' cs).tail with
  | nil => simp [hall]
  | cons f t2 =>
    cases t2 with
    | nil => simp [hall]
    | cons f2 t3 => rfl

/-- A successful decimal parse determines the `ToNumber` coercion. -/
theorem jsToNumberChars_eq_of_parse {cs : List Char} {q : ℚ}
    (h : parseUnsigned cs = some q) : jsToNumberChars cs = .num q := by
  have hne : cs ≠ [] := by
    intro hnil
    rw [hnil, parseUnsigned_nil] at h
    exact Option.noConfusion h
  obtain ⟨c, cs', rfl⟩ : ∃ c cs', cs = c :: cs' := by
    cases cs with
    | nil => exact absurd rfl hne
    | cons c cs' => exact ⟨c, cs', rfl⟩
  have hcd : isDigitCh c = true ∨ c = '.' := by
    by_cases h1 : isDigitCh c = true
    · exact Or.inl h1
    · by_cases h2 : c = '.'
      · exact Or.inr h2
      · rw [parseUnsigned_cons_notDigit (Bool.not_eq_true _ ▸ h1 : isDigitCh c = false) h2] at h
        exact Option.noConfusion h
  have hsign : c ≠ '-' ∧ c ≠ '+' ∧ c ≠ 'I' := by
    refine ⟨?_, ?_, ?_⟩ <;>
      (rintro rfl; rcases hcd with h1 | h1 <;> exact absurd h1 (by decide))
  have hInf : ¬(c :: cs' = "Infinity".toList ∨ c :: cs' = "+Infinity".toList) := by
    rintro (heq | heq)
    · have : "Infinity".toList = 'I' :: "nfinity".toList := rfl
      rw [this] at heq
      injection heq with hc _
      exact hsign.2.2 hc
    · have : "+Infinity".toList = '+' :: "Infinity".toList := rfl
      rw [this] at heq
      injection heq with hc _
      exact hsign.2.1 hc
  have hNegInf : c :: cs' ≠ "-Infinity".toList := by
    intro heq
    have : "-Infinity".toList = '-' :: "Infinity".toList := rfl
    rw [this] at heq
    injection heq with hc _
    exact hsign.1 hc
  rw [jsToNumberChars]
  rw [if_neg hne, if_neg hInf, if_neg hNegInf]
  have hh1 : ¬((c :: cs').head? = some '-') := by
    intro hcon
    simp only [List.head?_cons, Option.some.injEq] at hcon
    exact hsign.1 hcon
  have hh2 : ¬((c :: cs').head? = some '+') := by
    intro hcon
    simp only [List.head?_cons, Option.some.injEq] at hcon
    exact hsign.2.1 hcon
  rw [if_neg hh1, if_neg hh2, h]

/-- Parse of `digits ++ zeros`: the integer shape. -/
theorem parse_int_shape (a z : ℕ) (ha : a ≠ 0) :
    jsToNumberChars (digitsBE a ++ List.replicate z '0') = .num ((a * 10 ^ z : ℕ) : ℚ) := by
  have hne : digitsBE a ++ List.replicate z '0' ≠ [] := by
    intro hcon
    exact digitsBE_ne_nil ha (List.append_eq_nil.mp hcon).1
  have hall : allDigits (digitsBE a ++ List.replicate z '0') = true := by
    rw [allDigits_append, allDigits_digitsBE, allDigits_replicate_zero]
    rfl
  have hval : digitsToNatVal (digitsBE a ++ List.replicate z '0') = a * 10 ^ z := by
    rw [digitsToNatVal_append, digitsToNatVal_digitsBE, digitsToNatVal_replicate_zero,
      List.length_replicate]
    omega
  rw [jsToNumberChars_eq_of_parse (parseUnsigned_digits hne hall), hval]

/-- Parse of `digits.digits`: the mid-point shape. -/
theorem parse_mid_shape (a i : ℕ) (hi : 0 < i) (hik : i < (digitsBE a).length) :
    jsToNumberChars ((digitsBE a).take i ++ '.' :: (digitsBE a).drop i)
      = .num ((a : ℚ) / 10 ^ ((digitsBE a).length - i)) := by
  have hta : allDigits ((digitsBE a).take i) = true := allDigits_take _ _ (allDigits_digitsBE a)
  have hda : allDigits ((digitsBE a).drop i) = true := allDigits_drop _ _ (allDigits_digitsBE a)
  have htne : (digitsBE a).take i ≠ [] := by
    intro hcon
    rcases List.take_eq_nil_iff.mp hcon with h | h
    · omega
    · rw [h] at hik; simp at hik
  rw [jsToNumberChars_eq_of_parse (parseUnsigned_point hta hda (Or.inl htne))]
  have hsplit : digitsToNatVal ((digitsBE a).take i) * 10 ^ ((digitsBE a).drop i).length
      + digitsToNatVal ((digitsBE a).drop i) = a := by
    rw [← digitsToNatVal_append, List.take_append_drop, digitsToNatVal_digitsBE]
  have hlen : ((digitsBE a).drop i).length = (digitsBE a).length - i := List.length_drop i _
  congr 1
  rw [qAdd_eq, qDiv_eq, ten_pow_cast, hlen]
  have ha2 : (a : ℚ)
      = (digitsToNatVal ((digitsBE a).take i) : ℚ) * 10 ^ ((digitsBE a).length - i)
        + (digitsToNatVal ((digitsBE a).drop i) : ℚ) := by
    rw [← hlen]
    exact_mod_cast hsplit.symm
  rw [ha2, add_div, mul_div_cancel_right₀ _ (ten_pow_ne_zero _)]

/-- Parse of `0.zeros digits`: the small-value shape. -/
theorem parse_small_shape (a z0 : ℕ) :
    jsToNumberChars ('0' :: '.' :: (List.replicate z0 '0' ++ digitsBE a))
      = .num ((a : ℚ) / 10 ^ (z0 + (digitsBE a).length)) := by
  have h0 : ('0' :: '.' :: (List.replicate z0 '0' ++ digitsBE a))
      = ['0'] ++ '.' :: (List.replicate z0 '0' ++ digitsBE a) := rfl
  have hi : allDigits ['0'] = true := by decide
  have hf : allDigits (List.replicate z0 '0' ++ digitsBE a) = true := by
    rw [allDigits_append, allDigits_replicate_zero, allDigits_digitsBE]
    rfl
  rw [h0, jsToNumberChars_eq_of_parse (parseUnsigned_point hi hf (Or.inl (by simp)))]
  have hval : digitsToNatVal (List.replicate z0 '0' ++ digitsBE a) = a := by
    rw [digitsToNatVal_append, digitsToNatVal_replicate_zero, digitsToNatVal_digitsBE]
    omega
  have hlen : (List.replicate z0 '0' ++ digitsBE a).length = z0 + (digitsBE a).length := by
    simp
  congr 1
  rw [qAdd_eq, qDiv_eq, ten_pow_cast, hval, hlen]
  have h00 : ((digitsToNatVal ['0'] : ℕ) : ℚ) = 0 := by
    have : digitsToNatVal ['0'] = 0 := by decide
    rw [this]
    norm_num
  rw [h00, zero_add]

/-- Parse of a negatively signed exponent string. -/
theorem parseSignedNat_neg (l : ℕ) (hl : l ≠ 0) :
    parseSignedNat ('-' :: digitsBE l) = some (-(l : ℤ)) := by
  show (parseNatDigits (digitsBE l)).map (fun n => -(n : ℤ)) = some (-(l : ℤ))
  rw [parseNatDigits, if_pos ⟨digitsBE_ne_nil hl, allDigits_digitsBE l⟩]
  simp [digitsToNatVal_digitsBE]

/-- Parse of a positively signed exponent string. -/
theorem parseSignedNat_pos (l : ℕ) (hl : l ≠ 0) :
    parseSignedNat ('+' :: digitsBE l) = some ((l : ℤ)) := by
  show (parseNatDigits (digitsBE l)).map (fun n => (n : ℤ)) = some ((l : ℤ))
  rw [parseNatDigits, if_pos ⟨digitsBE_ne_nil hl, allDigits_digitsBE l⟩]
  simp [digitsToNatVal_digitsBE]

end Binance

namespace Binance

/-! ## Characters of the rendered shapes -/

/-- Membership of a character in a rendered digit block. -/
theorem notMem_digitsBE {c : Char} (hc : isDigitCh c = false) (a : ℕ) : c ∉ digitsBE a :=
  notMem_of_allDigits (allDigits_digitsBE a) hc

/-- Non-zero characters are not in zero runs. -/
theorem notMem_replicate_zero {c : Char} (hc : c ≠ '0') (z : ℕ) :
    c ∉ List.replicate z '0' := by
  intro hmem
  exact hc (List.eq_of_mem_replicate hmem)

/-- The letter `e` is not a digit. -/
theorem isDigitCh_e : isDigitCh 'e' = false := by decide

/-- The letter `E` is not a digit. -/
theorem isDigitCh_E : isDigitCh 'E' = false := by decide

end Binance

namespace Binance

/-! ## The renderer round-trip -/

/-- Bool-level membership test, positive direction. -/
theorem contains_eq_true_iff (cs : List Char) (c : Char) :
    cs.contains c = true ↔ c ∈ cs := by
  simp [List.contains, List.elem_eq_mem]

theorem notMem_cons_of {c x : Char} {xs : List Char} (h1 : c ≠ x) (h2 : c ∉ xs) :
    c ∉ x :: xs := by
  rw [List.mem_cons]
  push_neg
  exact ⟨h1, h2⟩

theorem notMem_append_of {c : Char} {xs ys : List Char} (h1 : c ∉ xs) (h2 : c ∉ ys) :
    c ∉ xs ++ ys := by
  rw [List.mem_append]
  push_neg
  exact ⟨h1, h2⟩

theorem notMem_take {c : Char} {xs : List Char} (i : ℕ) (h : c ∉ xs) : c ∉ xs.take i :=
  fun hmem => h (List.take_subset i xs hmem)

theorem notMem_drop {c : Char} {xs : List Char} (i : ℕ) (h : c ∉ xs) : c ∉ xs.drop i :=
  fun hmem => h (List.drop_subset i xs hmem)

/-- The division form of the scaling law, used by the fractional branches. -/
theorem val_div_form {s1 z e : ℕ} {q : ℚ} (hval : (s1 : ℚ) * 10 ^ z = q * 10 ^ e)
    (hze : z ≤ e) : ((s1 : ℕ) : ℚ) / 10 ^ (e - z) = q := by
  have h10 : (10 : ℚ) ^ e = 10 ^ (e - z) * 10 ^ z := by
    rw [← pow_add]
    congr 1
    omega
  rw [h10, ← mul_assoc] at hval
  rw [div_eq_iff (ten_pow_ne_zero _)]
  exact mul_right_cancel₀ (ten_pow_ne_zero z) hval

/-- The multiplication form of the scaling law, used by the integer branches. -/
theorem val_mul_form {s1 z e : ℕ} {q : ℚ} (hval : (s1 : ℚ) * 10 ^ z = q * 10 ^ e)
    (hez : e ≤ z) : (((s1 * 10 ^ (z - e) : ℕ)) : ℚ) = q := by
  have h10 : (10 : ℚ) ^ z = 10 ^ (z - e) * 10 ^ e := by
    rw [← pow_add]
    congr 1
    omega
  rw [h10, ← mul_assoc] at hval
  push_cast
  exact mul_right_cancel₀ (ten_pow_ne_zero e) hval

theorem renderDigits_parse (s1 z e : ℕ) (hs1 : s1 ≠ 0) (q : ℚ)
    (hval : (s1 : ℚ) * 10 ^ z = q * 10 ^ e)
    (s : List Char) (h : sciOnString (renderDigits s1 z e) = some s) :
    jsToNumberChars s = .num q ∧ 'e' ∉ s ∧ 'E' ∉ s := by
  have hds : digitsBE s1 ≠ [] := digitsBE_ne_nil hs1
  have hkpos : 0 < (digitsBE s1).length := List.length_pos.mpr hds
  simp only [renderDigits] at h
  by_cases hA : ((digitsBE s1).length : ℤ) ≤ ((digitsBE s1).length : ℤ) + (z : ℤ) - (e : ℤ)
      ∧ ((digitsBE s1).length : ℤ) + (z : ℤ) - (e : ℤ) ≤ 21
  · -- positional integer branch
    rw [if_pos hA] at h
    have hze : e ≤ z := by
      have := hA.1
      omega
    have htoNat : (((digitsBE s1).length : ℤ) + (z : ℤ) - (e : ℤ)
        - ((digitsBE s1).length : ℤ)).toNat = z - e := by omega
    rw [htoNat] at h
    have hne : 'e' ∉ digitsBE s1 ++ List.replicate (z - e) '0' :=
      notMem_append_of (notMem_digitsBE isDigitCh_e s1) (notMem_replicate_zero (by decide) _)
    have hnE : 'E' ∉ digitsBE s1 ++ List.replicate (z - e) '0' :=
      notMem_append_of (notMem_digitsBE isDigitCh_E s1) (notMem_replicate_zero (by decide) _)
    rw [sciOnString, (contains_eq_false_iff _ _).mpr hne] at h
    rw [if_neg (by simp)] at h
    obtain rfl : s = _ := (Option.some.inj h).symm
    refine ⟨?_, hne, hnE⟩
    rw [parse_int_shape s1 (z - e) hs1]
    congr 1
    exact val_mul_form hval hze
  · by_cases hB : (0 : ℤ) < ((digitsBE s1).length : ℤ) + (z : ℤ) - (e : ℤ)
        ∧ ((digitsBE s1).length : ℤ) + (z : ℤ) - (e : ℤ) ≤ 21
    · -- mid-point branch
      rw [if_neg hA, if_pos hB] at h
      have hnk : ((digitsBE s1).length : ℤ) + (z : ℤ) - (e : ℤ) < ((digitsBE s1).length : ℤ) := by
        rcases hB with ⟨hB1, hB2⟩
        omega
      have hze : z ≤ e := by omega
      have hi : 0 < (((digitsBE s1).length : ℤ) + (z : ℤ) - (e : ℤ)).toNat := by omega
      have hik : (((digitsBE s1).length : ℤ) + (z : ℤ) - (e : ℤ)).toNat
          < (digitsBE s1).length := by omega
      have hne : 'e' ∉ (digitsBE s1).take (((digitsBE s1).length : ℤ) + (z : ℤ) - (e : ℤ)).toNat
          ++ '.' :: (digitsBE s1).drop (((digitsBE s1).length : ℤ) + (z : ℤ) - (e : ℤ)).toNat :=
        notMem_append_of (notMem_take _ (notMem_digitsBE isDigitCh_e s1))
          (notMem_cons_of (by decide) (notMem_drop _ (notMem_digitsBE isDigitCh_e s1)))
      have hnE : 'E' ∉ (digitsBE s1).take (((digitsBE s1).length : ℤ) + (z : ℤ) - (e : ℤ)).toNat
          ++ '.' :: (digitsBE s1).drop (((digitsBE s1).length : ℤ) + (z : ℤ) - (e : ℤ)).toNat :=
        notMem_append_of (notMem_take _ (notMem_digitsBE isDigitCh_E s1))
          (notMem_cons_of (by decide) (notMem_drop _ (notMem_digitsBE isDigitCh_E s1)))
      rw [sciOnString, (contains_eq_false_iff _ _).mpr hne] at h
      rw [if_neg (by simp)] at h
      obtain rfl : s = _ := (Option.some.inj h).symm
      refine ⟨?_, hne, hnE⟩
      rw [parse_mid_shape s1 _ hi hik]
      congr 1
      have hlen : (digitsBE s1).length
          - (((digitsBE s1).length : ℤ) + (z : ℤ) - (e : ℤ)).toNat = e - z := by omega
      rw [hlen]
      exact val_div_form hval hze
    · by_cases hC : (-6 : ℤ) < ((digitsBE s1).length : ℤ) + (z : ℤ) - (e : ℤ)
          ∧ ((digitsBE s1).length : ℤ) + (z : ℤ) - (e : ℤ) ≤ 0
      · -- small-value branch
        rw [if_neg hA, if_neg hB, if_pos hC] at h
        have hze : z ≤ e := by
          have := hC.2
          omega
        have hne : 'e' ∉ '0' :: '.' ::
            (List.replicate (-(((digitsBE s1).length : ℤ) + (z : ℤ) - (e : ℤ))).toNat '0'
              ++ digitsBE s1) :=
          notMem_cons_of (by decide) (notMem_cons_of (by decide)
            (notMem_append_of (notMem_replicate_zero (by decide) _)
              (notMem_digitsBE isDigitCh_e s1)))
        have hnE : 'E' ∉ '0' :: '.' ::
            (List.replicate (-(((digitsBE s1).length : ℤ) + (z : ℤ) - (e : ℤ))).toNat '0'
              ++ digitsBE s1) :=
          notMem_cons_of (by decide) (notMem_cons_of (by decide)
            (notMem_append_of (notMem_replicate_zero (by decide) _)
              (notMem_digitsBE isDigitCh_E s1)))
        rw [sciOnString, (contains_eq_false_iff _ _).mpr hne] at h
        rw [if_neg (by simp)] at h
        obtain rfl : s = _ := (Option.some.inj h).symm
        refine ⟨?_, hne, hnE⟩
        rw [parse_small_shape]
        congr 1
        have hlen : (-(((digitsBE s1).length : ℤ) + (z : ℤ) - (e : ℤ))).toNat
            + (digitsBE s1).length = e - z := by omega
        rw [hlen]
        exact val_div_form hval hze
      · -- scientific branch
        rw [if_neg hA, if_neg hB, if_neg hC] at h
        have hD : ((digitsBE s1).length : ℤ) + (z : ℤ) - (e : ℤ) ≤ -6
            ∨ 21 < ((digitsBE s1).length : ℤ) + (z : ℤ) - (e : ℤ) := by omega
        have hecoeff : 'e' ∉ (digitsBE s1).take 1
            ++ (if 1 < (digitsBE s1).length then '.' :: (digitsBE s1).drop 1 else []) := by
          apply notMem_append_of (notMem_take _ (notMem_digitsBE isDigitCh_e s1))
          by_cases h1 : 1 < (digitsBE s1).length
          · rw [if_pos h1]
            exact notMem_cons_of (by decide) (notMem_drop _ (notMem_digitsBE isDigitCh_e s1))
          · rw [if_neg h1]
            simp
        have hflat : (splitOnChar '.' ((digitsBE s1).take 1
            ++ (if 1 < (digitsBE s1).length then '.' :: (digitsBE s1).drop 1 else []))).flatten
            = digitsBE s1 := by
          by_cases h1 : 1 < (digitsBE s1).length
          · rw [if_pos h1]
            rw [splitOnChar_append_cons (notMem_take _ (notMem_digitsBE (by decide) s1))]
            rw [splitOnChar_of_not_mem (notMem_drop _ (notMem_digitsBE (by decide) s1))]
            simp
            rw [← List.drop_one, List.take_append_drop]
          · rw [if_neg h1, List.append_nil]
            rw [List.take_of_length_le (by omega)]
            rw [splitOnChar_of_not_mem (notMem_digitsBE (by decide) s1)]
            simp
        rcases hD with hD1 | hD2
        · -- negative decimal exponent: reconstruction into the small-value shape
          have hsign : ((digitsBE s1).length : ℤ) + (z : ℤ) - (e : ℤ) - 1 < 0 := by omega
          rw [if_pos hsign] at h
          have hLne : (((digitsBE s1).length : ℤ) + (z : ℤ) - (e : ℤ) - 1).natAbs ≠ 0 := by
            omega
          have heex : 'e' ∉ ('-' : Char)
              :: digitsBE (((digitsBE s1).length : ℤ) + (z : ℤ) - (e : ℤ) - 1).natAbs :=
            notMem_cons_of (by decide) (notMem_digitsBE isDigitCh_e _)
          rw [sciOnString] at h
          rw [if_pos ((contains_eq_true_iff _ _).mpr (by simp))] at h
          rw [splitOnChar_append_cons hecoeff] at h
          rw [splitOnChar_of_not_mem heex] at h
          simp only [List.getLast?_singleton] at h
          rw [sciReconstruct, parseSignedNat_neg _ hLne] at h
          simp only [Int.natAbs_neg, Int.natAbs_ofNat] at h
          rw [if_pos (by omega : -(((((digitsBE s1).length : ℤ) + (z : ℤ) - (e : ℤ) - 1).natAbs
            : ℤ)) < 0)] at h
          rw [hflat] at h
          obtain rfl : s = _ := (Option.some.inj h).symm
          have hne : 'e' ∉ '0' :: '.' ::
              (List.replicate ((((digitsBE s1).length : ℤ) + (z : ℤ) - (e : ℤ) - 1).natAbs - 1)
                '0' ++ digitsBE s1) :=
            notMem_cons_of (by decide) (notMem_cons_of (by decide)
              (notMem_append_of (notMem_replicate_zero (by decide) _)
                (notMem_digitsBE isDigitCh_e s1)))
          have hnE : 'E' ∉ '0' :: '.' ::
              (List.replicate ((((digitsBE s1).length : ℤ) + (z : ℤ) - (e : ℤ) - 1).natAbs - 1)
                '0' ++ digitsBE s1) :=
            notMem_cons_of (by decide) (notMem_cons_of (by decide)
              (notMem_append_of (notMem_replicate_zero (by decide) _)
                (notMem_digitsBE isDigitCh_E s1)))
          refine ⟨?_, hne, hnE⟩
          rw [parse_small_shape]
          congr 1
          have hlen : ((((digitsBE s1).length : ℤ) + (z : ℤ) - (e : ℤ) - 1).natAbs - 1)
              + (digitsBE s1).length = e - z := by omega
          rw [hlen]
          exact val_div_form hval (by omega)
        · -- positive decimal exponent
          have hsign : ¬(((digitsBE s1).length : ℤ) + (z : ℤ) - (e : ℤ) - 1 < 0) := by omega
          rw [if_neg hsign] at h
          have hLne : (((digitsBE s1).length : ℤ) + (z : ℤ) - (e : ℤ) - 1).natAbs ≠ 0 := by
            omega
          have heex : 'e' ∉ ('+' : Char)
              :: digitsBE (((digitsBE s1).length : ℤ) + (z : ℤ) - (e : ℤ) - 1).natAbs :=
            notMem_cons_of (by decide) (notMem_digitsBE isDigitCh_e _)
          rw [sciOnString] at h
          rw [if_pos ((contains_eq_true_iff _ _).mpr (by simp))] at h
          rw [splitOnChar_append_cons hecoeff] at h
          rw [splitOnChar_of_not_mem heex] at h
          simp only [List.getLast?_singleton] at h
          rw [sciReconstruct, parseSignedNat_pos _ hLne] at h
          simp only [Int.natAbs_ofNat] at h
          rw [if_neg (by omega : ¬(((((digitsBE s1).length : ℤ) + (z : ℤ) - (e : ℤ) - 1).natAbs
            : ℤ)) < 0)] at h
          by_cases h1 : 1 < (digitsBE s1).length
          · -- multi-digit coefficient: the TypeError case, contradicting `h`
            rw [if_pos h1] at h
            rw [splitOnChar_append_cons (notMem_take _ (notMem_digitsBE (by decide) s1))] at h
            rw [splitOnChar_of_not_mem (notMem_drop _ (notMem_digitsBE (by decide) s1))] at h
            have hdec : (digitsBE s1).drop 1 ≠ [] := by
              intro hcon
              rw [List.drop_eq_nil_iff] at hcon
              omega
            simp only [List.drop_succ_cons, List.drop_zero, List.head?_cons] at h
            rw [if_neg hdec] at h
            exact absurd h (by simp)
          · -- one-digit coefficient: the integer shape
            rw [if_neg h1, List.append_nil, List.take_of_length_le (by omega)] at h
            rw [splitOnChar_of_not_mem (notMem_digitsBE (by decide) s1)] at h
            simp only [List.drop_succ_cons, List.drop_zero, List.head?_nil, List.flatten,
              List.append_nil] at h
            obtain rfl : s = _ := (Option.some.inj h).symm
            have hne : 'e' ∉ digitsBE s1 ++ List.replicate
                ((((digitsBE s1).length : ℤ) + (z : ℤ) - (e : ℤ) - 1).natAbs) '0' :=
              notMem_append_of (notMem_digitsBE isDigitCh_e s1)
                (notMem_replicate_zero (by decide) _)
            have hnE : 'E' ∉ digitsBE s1 ++ List.replicate
                ((((digitsBE s1).length : ℤ) + (z : ℤ) - (e : ℤ) - 1).natAbs) '0' :=
              notMem_append_of (notMem_digitsBE isDigitCh_E s1)
                (notMem_replicate_zero (by decide) _)
            refine ⟨?_, hne, hnE⟩
            rw [parse_int_shape s1 _ hs1]
            congr 1
            have hlen : ((((digitsBE s1).length : ℤ) + (z : ℤ) - (e : ℤ) - 1).natAbs) = z - e := by
              omega
            rw [hlen]
            exact val_mul_form hval (by omega)

end Binance

namespace Binance

/-- Round-trip of the renderer: on a nonnegative terminating decimal, a
string produced by `scientificToDecimal` re-parses (via `ToNumber`) to the
very value rendered, and carries no exponent marker. -/
theorem sciToDec_parse {q : ℚ} (hq0 : 0 ≤ q) (T : ℕ) (hT : q.den ∣ 10 ^ T) (s : List Char)
    (h : scientificToDecimal (.num q) = some s) :
    jsToNumberChars s = .num q ∧ 'e' ∉ s ∧ 'E' ∉ s := by
  rcases eq_or_lt_of_le hq0 with hq | hq
  · have hq' : q = 0 := hq.symm
    subst hq'
    have hstr : jsValToChars (.num 0) = ['0'] := by
      show jsNumToString 0 = ['0']
      rw [jsNumToString, if_pos rfl]
    rw [scientificToDecimal, hstr] at h
    have hsci : sciOnString ['0'] = some ['0'] := by decide
    rw [hsci] at h
    obtain rfl : s = ['0'] := (Option.some.inj h).symm
    refine ⟨?_, by decide, by decide⟩
    decide
  · obtain ⟨e, he⟩ := Option.isSome_iff_exists.mp (decExp_isSome T hT)
    have hden1 : (qMul q ((10 ^ e : ℕ) : ℚ)).den = 1 := minExpAux_some _ _ _ he
    have hPq : qMul q ((10 ^ e : ℕ) : ℚ) = q * (10 : ℚ) ^ e := by
      rw [qMul_eq, ten_pow_cast]
    have hPpos : 0 < qMul q ((10 ^ e : ℕ) : ℚ) := by
      rw [hPq]
      positivity
    have hPnum : (((qMul q ((10 ^ e : ℕ) : ℚ)).num : ℚ)) = qMul q ((10 ^ e : ℕ) : ℚ) := by
      conv_rhs => rw [← Rat.num_div_den (qMul q ((10 ^ e : ℕ) : ℚ))]
      rw [hden1]
      norm_num
    have hs0cast : (((qMul q ((10 ^ e : ℕ) : ℚ)).num.toNat : ℤ))
        = (qMul q ((10 ^ e : ℕ) : ℚ)).num :=
      Int.toNat_of_nonneg (Rat.num_nonneg.mpr hPpos.le)
    have hs0q : (((qMul q ((10 ^ e : ℕ) : ℚ)).num.toNat : ℚ)) = q * 10 ^ e := by
      rw [← hPq, ← hPnum]
      exact_mod_cast congrArg (fun x : ℤ => (x : ℚ)) hs0cast
    have hs0ne : (qMul q ((10 ^ e : ℕ) : ℚ)).num.toNat ≠ 0 := by
      intro h0
      rw [h0] at hs0q
      have hpos : (0 : ℚ) < q * 10 ^ e := by positivity
      rw [← hs0q] at hpos
      norm_num at hpos
    have hfact := stripTens_spec ((qMul q ((10 ^ e : ℕ) : ℚ)).num.toNat)
    have hs1ne := stripTens_fst_ne_zero hs0ne
    have hval : (((stripTens ((qMul q ((10 ^ e : ℕ) : ℚ)).num.toNat)).1 : ℚ))
        * 10 ^ ((stripTens ((qMul q ((10 ^ e : ℕ) : ℚ)).num.toNat)).2) = q * 10 ^ e := by
      rw [← hs0q]
      exact_mod_cast congrArg (fun x : ℕ => (x : ℚ)) hfact
    have hrender : jsValToChars (.num q)
        = renderDigits (stripTens ((qMul q ((10 ^ e : ℕ) : ℚ)).num.toNat)).1
            (stripTens ((qMul q ((10 ^ e : ℕ) : ℚ)).num.toNat)).2 e := by
      show jsNumToString q = _
      rw [jsNumToString, if_neg hq.ne', if_neg (not_lt.mpr hq.le), posToChars, he]
    rw [scientificToDecimal, hrender] at h
    exact renderDigits_parse _ _ _ hs1ne q hval s h

end Binance

namespace Binance

/-! ## The precision loop -/

/-- Floor of an integer plus one half. -/
theorem floor_intCast_add_half (i : ℤ) : ⌊(i : ℚ) + 1 / 2⌋ = i := by
  rw [add_comm, Int.floor_add_int]
  norm_num

/-- One loop step advances the scale by a factor of ten. -/
theorem qMul_pow_ten (j : ℕ) : qMul ((10 : ℚ) ^ j) 10 = (10 : ℚ) ^ (j + 1) := by
  rw [qMul_eq, pow_succ]

/-- When the stop condition first holds after `d` further scalings, the loop
returns the digit count reached there. -/
theorem getPrecisionLoop_eq_some (q : ℚ) :
    ∀ (d fuel j p : ℕ),
      (∀ i, i < d → ¬(((⌊q * 10 ^ (j + i) + 1 / 2⌋ : ℤ) : ℚ) / 10 ^ (j + i) = q)) →
      (((⌊q * 10 ^ (j + d) + 1 / 2⌋ : ℤ) : ℚ) / 10 ^ (j + d) = q) →
      d < fuel →
      getPrecisionLoop fuel q ((10 : ℚ) ^ j) p = some (p + d) := by
  intro d
  induction d with
  | zero =>
    intro fuel j p _ hhit hf
    match fuel, hf with
    | f + 1, _ =>
      rw [getPrecisionLoop]
      have hcond : qDiv ((jsRound (qMul q ((10 : ℚ) ^ j)) : ℤ) : ℚ) ((10 : ℚ) ^ j) = q := by
        rw [qDiv_eq, qMul_eq, jsRound_eq]
        simpa using hhit
      rw [if_pos hcond]
      rfl
  | succ d ih =>
    intro fuel j p hmiss hhit hf
    match fuel, hf with
    | f + 1, hf =>
      rw [getPrecisionLoop]
      have hcond : ¬(qDiv ((jsRound (qMul q ((10 : ℚ) ^ j)) : ℤ) : ℚ) ((10 : ℚ) ^ j) = q) := by
        rw [qDiv_eq, qMul_eq, jsRound_eq]
        have h0 := hmiss 0 (Nat.succ_pos d)
        simpa using h0
      rw [if_neg hcond, qMul_pow_ten]
      have hmiss1 : ∀ i, i < d → ¬(((⌊q * 10 ^ (j + 1 + i) + 1 / 2⌋ : ℤ) : ℚ)
          / 10 ^ (j + 1 + i) = q) := by
        intro i hi
        have h := hmiss (i + 1) (by omega)
        rw [show j + (i + 1) = j + 1 + i by omega] at h
        exact h
      have hhit1 : ((⌊q * 10 ^ (j + 1 + d) + 1 / 2⌋ : ℤ) : ℚ) / 10 ^ (j + 1 + d) = q := by
        rw [show j + 1 + d = j + (d + 1) by omega]
        exact hhit
      have hres := ih f (j + 1) (p + 1) hmiss1 hhit1 (by omega)
      rw [hres]
      congr 1
      omega

/-- When the stop condition holds after `d` further scalings, the loop stops
within `d` more iterations (possibly earlier). -/
theorem getPrecisionLoop_isSome (q : ℚ) :
    ∀ (d fuel j p : ℕ),
      (((⌊q * 10 ^ (j + d) + 1 / 2⌋ : ℤ) : ℚ) / 10 ^ (j + d) = q) → d < fuel →
      ∃ r, r ≤ p + d ∧ getPrecisionLoop fuel q ((10 : ℚ) ^ j) p = some r := by
  intro d
  induction d with
  | zero =>
    intro fuel j p hhit hf
    match fuel, hf with
    | f + 1, _ =>
      rw [getPrecisionLoop]
      have hcond : qDiv ((jsRound (qMul q ((10 : ℚ) ^ j)) : ℤ) : ℚ) ((10 : ℚ) ^ j) = q := by
        rw [qDiv_eq, qMul_eq, jsRound_eq]
        simpa using hhit
      rw [if_pos hcond]
      exact ⟨p, le_rfl, rfl⟩
  | succ d ih =>
    intro fuel j p hhit hf
    match fuel, hf with
    | f + 1, hf =>
      rw [getPrecisionLoop]
      by_cases hcond : qDiv ((jsRound (qMul q ((10 : ℚ) ^ j)) : ℤ) : ℚ) ((10 : ℚ) ^ j) = q
      · rw [if_pos hcond]
        exact ⟨p, by omega, rfl⟩
      · rw [if_neg hcond, qMul_pow_ten]
        have hhit1 : ((⌊q * 10 ^ (j + 1 + d) + 1 / 2⌋ : ℤ) : ℚ) / 10 ^ (j + 1 + d) = q := by
          rw [show j + 1 + d = j + (d + 1) by omega]
          exact hhit
        obtain ⟨r, hr, hloop⟩ := ih f (j + 1) (p + 1) hhit1 (by omega)
        exact ⟨r, by omega, hloop⟩

/-- The loop never stops on the tick size `1/3`: no rounding of
`(1/3) * 10 ^ j` divided back by `10 ^ j` can reproduce `1/3`. -/
theorem getPrecisionLoop_third_none :
    ∀ (fuel j p : ℕ), getPrecisionLoop fuel (1 / 3 : ℚ) ((10 : ℚ) ^ j) p = none := by
  intro fuel
  induction fuel with
  | zero => intro j p; rfl
  | succ f ih =>
    intro j p
    rw [getPrecisionLoop]
    have hcond : ¬(qDiv ((jsRound (qMul (1 / 3 : ℚ) ((10 : ℚ) ^ j)) : ℤ) : ℚ)
        ((10 : ℚ) ^ j) = 1 / 3) := by
      rw [qDiv_eq, qMul_eq, jsRound_eq]
      intro hcon
      rw [div_eq_iff (ten_pow_ne_zero j)] at hcon
      have h3 : (3 : ℚ) * (⌊(1 / 3 : ℚ) * 10 ^ j + 1 / 2⌋ : ℤ) = 10 ^ j := by
        rw [hcon]
        ring
      have h3i : (3 : ℤ) * ⌊(1 / 3 : ℚ) * 10 ^ j + 1 / 2⌋ = 10 ^ j := by
        exact_mod_cast h3
      have hdvd : (3 : ℤ) ∣ 10 ^ j := ⟨_, h3i.symm⟩
      have hp : Prime (3 : ℤ) := by norm_num
      have h310 : (3 : ℤ) ∣ 10 := hp.dvd_of_dvd_pow hdvd
      norm_num at h310
    rw [if_neg hcond, qMul_pow_ten]
    exact ih (j + 1) (p + 1)

/-- Divergence: `getPrecision` on `1/3` never stops, whatever the fuel. -/
theorem getPrecision_third_none (fuel : ℕ) :
    getPrecision fuel (.num (1 / 3 : ℚ)) = none := by
  show getPrecisionLoop fuel (1 / 3 : ℚ) 1 0 = none
  have h := getPrecisionLoop_third_none fuel 0 0
  rwa [pow_zero] at h

/-- On a binary-representable tick size `m / 2 ^ k` (every IEEE-754 double is
of this form) the loop stops after at most `k` iterations. -/
theorem getPrecision_dyadic (m : ℤ) (k fuel : ℕ) (hf : k + 1 ≤ fuel) :
    ∃ p, p ≤ k ∧ getPrecision fuel (.num ((m : ℚ) / 2 ^ k)) = some p := by
  have h25 : (10 : ℚ) ^ k = 2 ^ k * 5 ^ k := by
    rw [← mul_pow]
    norm_num
  have hint : ((m : ℚ) / 2 ^ k) * 10 ^ k = ((m * 5 ^ k : ℤ) : ℚ) := by
    rw [h25]
    push_cast
    field_simp
    ring
  have hhit : ((⌊((m : ℚ) / 2 ^ k) * 10 ^ (0 + k) + 1 / 2⌋ : ℤ) : ℚ)
      / 10 ^ (0 + k) = (m : ℚ) / 2 ^ k := by
    rw [Nat.zero_add, hint, floor_intCast_add_half]
    rw [div_eq_div_iff (ten_pow_ne_zero k) (pow_ne_zero k (by norm_num))]
    rw [h25]
    push_cast
    ring
  obtain ⟨r, hr, hloop⟩ := getPrecisionLoop_isSome ((m : ℚ) / 2 ^ k) k fuel 0 0 hhit (by omega)
  refine ⟨r, by omega, ?_⟩
  show getPrecisionLoop fuel ((m : ℚ) / 2 ^ k) 1 0 = some r
  rw [show (1 : ℚ) = (10 : ℚ) ^ 0 by norm_num]
  exact hloop

end Binance

namespace Binance

/-! ## Evaluating round -/

/-- The divided-floor value computed inside `round`, in field form. -/
theorem roundVal_eq (a : ℚ) (t : ℕ) :
    qDiv ((Rat.floor (qMul a ((10 ^ t : ℕ) : ℚ)) : ℤ) : ℚ) ((10 ^ t : ℕ) : ℚ)
      = ((⌊a * 10 ^ t⌋ : ℤ) : ℚ) / 10 ^ t := by
  rw [qDiv_eq, qMul_eq, ratFloor_eq, ten_pow_cast]

/-- Evaluation of `round` when the precision loop stops at `t` and the amount
coerces to the number `a`: scale by `10 ^ t`, floor, unscale, render. -/
theorem round_eval (fuel t : ℕ) (a : ℚ) (amt : JsInput) (tk : JsVal)
    (hp : getPrecision fuel tk = some t) (hamt : jsToNumber amt = .num a) :
    round fuel amt tk
      = some (scientificToDecimal (.num (((⌊a * 10 ^ t⌋ : ℤ) : ℚ) / 10 ^ t))) := by
  have hb : ¬(((10 ^ t : ℕ) : ℚ) = 0) := by
    rw [ten_pow_cast]
    exact ten_pow_ne_zero t
  rw [round, hp]
  simp only [hamt, jsvMul, jsvFloor, jsvDiv]
  rw [if_neg hb, roundVal_eq]

/-- The denominator of a floored-and-unscaled value divides the scale. -/
theorem den_dvd_pow_ten (m : ℤ) (t : ℕ) : ((m : ℚ) / 10 ^ t).den ∣ 10 ^ t := by
  have h := Rat.den_dvd m ((10 : ℤ) ^ t)
  have heq : Rat.divInt m ((10 : ℤ) ^ t) = (m : ℚ) / 10 ^ t := by
    rw [Rat.divInt_eq_div]
    push_cast
    ring
  rw [heq] at h
  exact_mod_cast h

/-- Extraction of the precision from a successful `round`. -/
theorem round_some_precision {fuel : ℕ} {amt : JsInput} {tk : JsVal} {r : Option (List Char)}
    (hr : round fuel amt tk = some r) : ∃ t, getPrecision fuel tk = some t := by
  cases hgp : getPrecision fuel tk with
  | none =>
    rw [round, hgp] at hr
    exact Option.noConfusion hr
  | some t => exact ⟨t, rfl⟩

/-! ## Claim theorems: the precision and rounding engine -/

/-- C2 counterexample: on the negative amount `-0.15` with tick size `0.1`
the code returns the string `"-0.2"`, whose value `-0.2` has strictly larger
magnitude than `-0.15` (flooring moves negative amounts away from zero); and
on the large amount `1.5e21` with tick size `1` the conversion throws a
`TypeError` (inner `none`) instead of returning any string. -/
theorem round_magnitude_counterexample :
    round 3 (.v (.num (mkRat (-15) 100))) (.num (mkRat 1 10)) = some (some "-0.2".toList)
    ∧ jsToNumberChars "-0.2".toList = .num (mkRat (-2) 10)
    ∧ (mkRat (-15) 100 : ℚ) = -3 / 20
    ∧ (mkRat (-2) 10 : ℚ) = -1 / 5
    ∧ |(mkRat (-2) 10 : ℚ)| > |(mkRat (-15) 100 : ℚ)|
    ∧ round 2 (.v (.num (mkRat (15 * 10 ^ 20) 1))) (.num 1) = some none := by
  have h1 : (mkRat (-15) 100 : ℚ) = -3 / 20 := by
    rw [Rat.mkRat_eq_divInt, Rat.divInt_eq_div]
    norm_num
  have h2 : (mkRat (-2) 10 : ℚ) = -1 / 5 := by
    rw [Rat.mkRat_eq_divInt, Rat.divInt_eq_div]
    norm_num
  refine ⟨by decide, by decide, h1, h2, ?_, by decide⟩
  rw [h1, h2]
  rw [abs_of_neg (by norm_num), abs_of_neg (by norm_num)]
  norm_num

/-- C2 (amended): for every nonnegative amount and every tick size whose
precision loop stops, whenever `round` returns a string at all, that string
re-parses to the rounded value, which is nonnegative, at most the amount (so
the magnitude never grows), and the string carries no exponent marker.  (For
negative amounts the magnitude can grow, and for large amounts with a
fractional scientific coefficient a `TypeError` is thrown instead — see the
counterexample.) -/
theorem round_truncates_toward_zero_nonneg (fuel : ℕ) (a : ℚ) (tk : JsVal) (s : List Char)
    (ha : 0 ≤ a) (hr : round fuel (.v (.num a)) tk = some (some s)) :
    ∃ q' : ℚ, jsToNumberChars s = .num q' ∧ 0 ≤ q' ∧ q' ≤ a ∧ |q'| ≤ |a|
      ∧ 'e' ∉ s ∧ 'E' ∉ s := by
  obtain ⟨t, hp⟩ := round_some_precision hr
  rw [round_eval fuel t a (.v (.num a)) tk hp rfl] at hr
  have hsci : scientificToDecimal (.num (((⌊a * 10 ^ t⌋ : ℤ) : ℚ) / 10 ^ t)) = some s :=
    Option.some.inj hr
  have h0m : (0 : ℤ) ≤ ⌊a * 10 ^ t⌋ := Int.floor_nonneg.mpr (by positivity)
  have hq0 : 0 ≤ ((⌊a * 10 ^ t⌋ : ℤ) : ℚ) / 10 ^ t :=
    div_nonneg (by exact_mod_cast h0m) (by positivity)
  obtain ⟨hparse, hne, hnE⟩ := sciToDec_parse hq0 t (den_dvd_pow_ten _ t) s hsci
  have hle : ((⌊a * 10 ^ t⌋ : ℤ) : ℚ) / 10 ^ t ≤ a := by
    rw [div_le_iff₀ (by positivity : (0 : ℚ) < 10 ^ t)]
    exact Int.floor_le _
  refine ⟨_, hparse, hq0, hle, ?_, hne, hnE⟩
  rw [abs_of_nonneg hq0, abs_of_nonneg ha]
  exact hle

/-- C2 witness: the amended theorem applied to the concrete nonnegative
amount `0.0000001234` and tick size `0.0000001`. -/
theorem round_truncates_toward_zero_nonneg_witness :
    ∃ q' : ℚ, jsToNumberChars "0.0000001".toList = .num q'
      ∧ 0 ≤ q' ∧ q' ≤ mkRat 1234 (10 ^ 10) ∧ |q'| ≤ |(mkRat 1234 (10 ^ 10) : ℚ)|
      ∧ 'e' ∉ "0.0000001".toList ∧ 'E' ∉ "0.0000001".toList :=
  round_truncates_toward_zero_nonneg 9 (mkRat 1234 (10 ^ 10)) (.num (mkRat 1 (10 ^ 7)))
    "0.0000001".toList (by decide) (by decide)

/-- C9 counterexample: `round` is not idempotent.  On the negative amount
`-0.0000001234` with tick size `0.0000001` the first application returns the
malformed string `"0.000000-2"` (the scientific-notation rebuild pastes the
sign inside the fraction); feeding that string back in coerces it to `NaN`
and the second application returns `"NaN"`, a different string. -/
theorem round_idempotent_counterexample :
    round 9 (.v (.num (mkRat (-1234) (10 ^ 10)))) (.num (mkRat 1 (10 ^ 7)))
      = some (some "0.000000-2".toList)
    ∧ round 9 (.s "0.000000-2".toList) (.num (mkRat 1 (10 ^ 7)))
      = some (some "NaN".toList)
    ∧ "NaN".toList ≠ "0.000000-2".toList :=
  ⟨by decide, by decide, by decide⟩

/-- C9 (amended): `round` is idempotent on nonnegative amounts: whenever it
returns a string for a nonnegative amount, applying `round` to that very
string (as JavaScript does, coercing it back to a number) returns the same
string.  (For negative amounts idempotence fails — see the counterexample.) -/
theorem round_idempotent_nonneg (fuel : ℕ) (a : ℚ) (tk : JsVal) (s : List Char)
    (ha : 0 ≤ a) (hr : round fuel (.v (.num a)) tk = some (some s)) :
    round fuel (.s s) tk = some (some s) := by
  obtain ⟨t, hp⟩ := round_some_precision hr
  rw [round_eval fuel t a (.v (.num a)) tk hp rfl] at hr
  have hsci : scientificToDecimal (.num (((⌊a * 10 ^ t⌋ : ℤ) : ℚ) / 10 ^ t)) = some s :=
    Option.some.inj hr
  have h0m : (0 : ℤ) ≤ ⌊a * 10 ^ t⌋ := Int.floor_nonneg.mpr (by positivity)
  have hq0 : 0 ≤ ((⌊a * 10 ^ t⌋ : ℤ) : ℚ) / 10 ^ t :=
    div_nonneg (by exact_mod_cast h0m) (by positivity)
  obtain ⟨hparse, _, _⟩ := sciToDec_parse hq0 t (den_dvd_pow_ten _ t) s hsci
  have hfix : ((⌊(((⌊a * 10 ^ t⌋ : ℤ) : ℚ) / 10 ^ t) * 10 ^ t⌋ : ℤ) : ℚ) / 10 ^ t
      = ((⌊a * 10 ^ t⌋ : ℤ) : ℚ) / 10 ^ t := by
    rw [div_mul_cancel₀ _ (ten_pow_ne_zero t), Int.floor_intCast]
  rw [round_eval fuel t (((⌊a * 10 ^ t⌋ : ℤ) : ℚ) / 10 ^ t) (.s s) tk hp hparse, hfix, hsci]

/-- C9 witness: the amended idempotence applied to the concrete nonnegative
amount `0.0000001234` and tick size `0.0000001`. -/
theorem round_idempotent_nonneg_witness :
    round 9 (.s "0.0000001".toList) (.num (mkRat 1 (10 ^ 7)))
      = some (some "0.0000001".toList) :=
  round_idempotent_nonneg 9 (mkRat 1234 (10 ^ 10)) (.num (mkRat 1 (10 ^ 7)))
    "0.0000001".toList (by decide) (by decide)

end Binance

namespace Binance

/-- C3: on tick sizes that are exact powers of ten the precision is the
number of decimal places — `k` for `10 ^ (-k)` and `0` for `10 ^ k` — with
`getPrecision 0 = 0` and `getPrecision Infinity = getPrecision NaN = 0`; and
the scenario `round(0.0000001234, 0.0000001)` derives precision 7 and
produces exactly the plain string `"0.0000001"`. -/
theorem getPrecision_powers_of_ten (k fuel : ℕ) (hf : k + 1 ≤ fuel) :
    getPrecision fuel (.num (1 / 10 ^ k : ℚ)) = some k
    ∧ getPrecision fuel (.num ((10 : ℚ) ^ k)) = some 0
    ∧ getPrecision fuel (.num 0) = some 0
    ∧ getPrecision fuel .posInf = some 0
    ∧ getPrecision fuel .nan = some 0
    ∧ getPrecision 9 (.num (mkRat 1 (10 ^ 7))) = some 7
    ∧ round 9 (.v (.num (mkRat 1234 (10 ^ 10)))) (.num (mkRat 1 (10 ^ 7)))
        = some (some "0.0000001".toList)
    ∧ (mkRat 1 (10 ^ 7) : ℚ) = 1 / 10 ^ 7
    ∧ (mkRat 1234 (10 ^ 10) : ℚ) = 1234 / 10 ^ 10 := by
  refine ⟨?_, ?_, ?_, rfl, rfl, by decide, by decide, ?_, ?_⟩
  · -- negative power of ten: the loop stops exactly after k scalings
    show getPrecisionLoop fuel (1 / 10 ^ k : ℚ) 1 0 = some k
    rw [show (1 : ℚ) = (10 : ℚ) ^ 0 by norm_num]
    have hmiss : ∀ i, i < k →
        ¬(((⌊(1 / 10 ^ k : ℚ) * 10 ^ (0 + i) + 1 / 2⌋ : ℤ) : ℚ) / 10 ^ (0 + i)
          = (1 / 10 ^ k : ℚ)) := by
      intro i hi
      have hscale : (1 / 10 ^ k : ℚ) * 10 ^ (0 + i) = 1 / 10 ^ (k - i) := by
        rw [Nat.zero_add, div_mul_eq_mul_div, one_mul, div_eq_div_iff
          (ten_pow_ne_zero k) (ten_pow_ne_zero (k - i)), one_mul, ← pow_add]
        congr 1
        omega
      have hsmall : (1 / 10 ^ (k - i) : ℚ) ≤ 1 / 10 := by
        apply div_le_div_of_nonneg_left (by norm_num) (by norm_num)
        calc (10 : ℚ) = 10 ^ 1 := by norm_num
        _ ≤ 10 ^ (k - i) := by
            apply pow_le_pow_right₀ (by norm_num)
            omega
      have hposq : (0 : ℚ) < 1 / 10 ^ (k - i) := by positivity
      have hfl : ⌊(1 / 10 ^ k : ℚ) * 10 ^ (0 + i) + 1 / 2⌋ = 0 := by
        rw [hscale]
        apply Int.floor_eq_zero_iff.mpr
        constructor
        · linarith
        · show (1 / 10 ^ (k - i) : ℚ) + 1 / 2 < 1
          linarith
      rw [hfl]
      intro hcon
      norm_num at hcon
      exact absurd hcon.symm (by positivity)
    have hhit : ((⌊(1 / 10 ^ k : ℚ) * 10 ^ (0 + k) + 1 / 2⌋ : ℤ) : ℚ) / 10 ^ (0 + k)
        = (1 / 10 ^ k : ℚ) := by
      have hone : (1 / 10 ^ k : ℚ) * 10 ^ (0 + k) = 1 := by
        rw [Nat.zero_add]
        field_simp
      rw [hone, show ⌊(1 : ℚ) + 1 / 2⌋ = 1 by norm_num, Nat.zero_add]
      norm_num
    have h := getPrecisionLoop_eq_some (1 / 10 ^ k : ℚ) k fuel 0 0 hmiss hhit (by omega)
    rwa [Nat.zero_add] at h
  · -- nonnegative power of ten: the loop stops immediately
    show getPrecisionLoop fuel ((10 : ℚ) ^ k) 1 0 = some 0
    rw [show (1 : ℚ) = (10 : ℚ) ^ 0 by norm_num]
    apply getPrecisionLoop_eq_some ((10 : ℚ) ^ k) 0 fuel 0 0 (by omega)
    · rw [Nat.add_zero, pow_zero, mul_one, div_one]
      rw [show ((10 : ℚ) ^ k) = (((10 ^ k : ℤ) : ℚ)) by push_cast; ring]
      rw [floor_intCast_add_half]
    · omega
  · -- tick size zero: the loop stops immediately with 0
    show getPrecisionLoop fuel (0 : ℚ) 1 0 = some 0
    rw [show (1 : ℚ) = (10 : ℚ) ^ 0 by norm_num]
    apply getPrecisionLoop_eq_some (0 : ℚ) 0 fuel 0 0 (by omega)
    · rw [Nat.add_zero, pow_zero, mul_one, div_one]
      norm_num
    · omega
  · rw [Rat.mkRat_eq_divInt, Rat.divInt_eq_div]
    norm_num
  · rw [Rat.mkRat_eq_divInt, Rat.divInt_eq_div]
    norm_num

/-- C3 witness: the power-of-ten law applied at `k = 7` with fuel 8. -/
theorem getPrecision_powers_of_ten_witness :
    getPrecision 8 (.num (1 / 10 ^ 7 : ℚ)) = some 7
    ∧ getPrecision 8 (.num ((10 : ℚ) ^ 7)) = some 0
    ∧ getPrecision 8 (.num 0) = some 0
    ∧ getPrecision 8 .posInf = some 0 := by
  obtain ⟨h1, h2, h3, h4, _⟩ := getPrecision_powers_of_ten 7 8 (by decide)
  exact ⟨h1, h2, h3, h4⟩

/-- C8 counterexample: the digit-count iteration of `getPrecision` is not
capped at 15 iterations (nor at any bound): on the tick size `1/3` the loop
has still not stopped after 16 iterations. -/
theorem getPrecision_not_capped_counterexample :
    getPrecision 16 (.num (mkRat 1 3)) = none ∧ (mkRat 1 3 : ℚ) = 1 / 3 := by
  refine ⟨by decide, ?_⟩
  rw [Rat.mkRat_eq_divInt, Rat.divInt_eq_div]
  norm_num

/-- C8 (amended): the source loop has no iteration cap at all.  Under exact
arithmetic it terminates — within `k + 1` iterations — on every tick size of
the form `m / 2 ^ k` (every value a binary floating-point input can take),
but on a value that never round-trips, such as `1/3`, it never stops, no
matter how many iterations are allowed. -/
theorem getPrecision_termination :
    (∀ fuel, getPrecision fuel (.num (1 / 3 : ℚ)) = none)
    ∧ ∀ (m : ℤ) (k fuel : ℕ), k + 1 ≤ fuel →
        ∃ p, p ≤ k ∧ getPrecision fuel (.num ((m : ℚ) / 2 ^ k)) = some p :=
  ⟨getPrecision_third_none, getPrecision_dyadic⟩

/-- C8 witness: the dyadic-termination half applied to the tick size
`3 / 2 ^ 2 = 0.75` with fuel 3, and the divergence half at fuel 16. -/
theorem getPrecision_termination_witness :
    (∃ p, p ≤ 2 ∧ getPrecision 3 (.num ((3 : ℚ) / 2 ^ 2)) = some p)
    ∧ getPrecision 16 (.num (1 / 3 : ℚ)) = none :=
  ⟨getPrecision_termination.2 3 2 3 (by decide), getPrecision_termination.1 16⟩

end Binance

namespace Binance

/-! ## Claim theorems: error classifier and order operations -/

/-- C1: a failure surfaced by `handleResponse` carries the retryable tag
(`notFatal = true`) exactly when its message contains one of the fixed
signatures: a message containing `ETIMEDOUT` is tagged retryable, a message
with no matching signature (such as `Insufficient balance`) is surfaced
fatal, and matching is case-sensitive (`etimedout` does not match). -/
theorem classifier_retryable_tag (msg : String) :
    (includes msg recoverableErrors = true →
      handleResponse (some (.objE msg)) none = .err ⟨msg, true⟩)
    ∧ (includes msg recoverableErrors = false →
      handleResponse (some (.objE msg)) none = .err ⟨msg, false⟩)
    ∧ handleResponse (some (.objE "connect ETIMEDOUT")) none
        = .err ⟨"connect ETIMEDOUT", true⟩
    ∧ handleResponse (some (.objE "Insufficient balance")) none
        = .err ⟨"Insufficient balance", false⟩
    ∧ includes "connect etimedout" recoverableErrors = false := by
  refine ⟨?_, ?_, by decide, by decide, by decide⟩
  · intro h
    show HandleOutcome.err ⟨msg, includes msg recoverableErrors⟩ = _
    rw [h]
  · intro h
    show HandleOutcome.err ⟨msg, includes msg recoverableErrors⟩ = _
    rw [h]

/-- C1 witness: the classification law applied to the two concrete
messages of the specification. -/
theorem classifier_retryable_tag_witness :
    handleResponse (some (.objE "connect ETIMEDOUT")) none
      = .err ⟨"connect ETIMEDOUT", true⟩
    ∧ handleResponse (some (.objE "Insufficient balance")) none
      = .err ⟨"Insufficient balance", false⟩ :=
  ⟨(classifier_retryable_tag "connect ETIMEDOUT").1 (by decide),
   (classifier_retryable_tag "Insufficient balance").2.1 (by decide)⟩

/-- C10: a response body whose `code` is present but zero (or absent) is not
turned into an error — with no transport error the call succeeds with the
body; and when a body with a truthy code does produce an error whose built
message matches no recoverable signature, that error is surfaced fatal
(`notFatal = false`), the conservative default. -/
theorem handleResponse_falsy_code (m : String) :
    handleResponse none (some { code := some 0, msg := m })
      = .ok (some { code := some 0, msg := m })
    ∧ handleResponse none (some { code := none, msg := m })
      = .ok (some { code := none, msg := m })
    ∧ ∀ c : ℤ, c ≠ 0 →
        includes ("Error " ++ toString c ++ ": " ++ m) recoverableErrors = false →
        handleResponse none (some { code := some c, msg := m })
          = .err ⟨"Error " ++ toString c ++ ": " ++ m, false⟩ := by
  refine ⟨by simp [handleResponse], rfl, ?_⟩
  intro c hc hinc
  rw [handleResponse]
  simp only [if_pos hc]
  simp only [errMessage]
  rw [hinc]

/-- C10 witness: the falsy-code law and the fatal default applied to the
Binance error code `-2010` with message `Insufficient balance`. -/
theorem handleResponse_falsy_code_witness :
    handleResponse none (some { code := some 0, msg := "Insufficient balance" })
      = .ok (some { code := some 0, msg := "Insufficient balance" })
    ∧ handleResponse none (some { code := some (-2010), msg := "Insufficient balance" })
      = .err ⟨"Error -2010: Insufficient balance", false⟩ := by
  refine ⟨(handleResponse_falsy_code "Insufficient balance").1, ?_⟩
  have h := (handleResponse_falsy_code "Insufficient balance").2.2 (-2010)
    (by decide) (by decide)
  rw [show ("Error " ++ toString (-2010 : ℤ) ++ ": " ++ "Insufficient balance")
    = "Error -2010: Insufficient balance" by decide] at h
  exact h

/-- C4: a cancel failure whose message includes the `UNKNOWN_ORDER` signature
is surfaced as the successful result `true` (the order was already filled),
and an errorless cancellation is surfaced as the successful result `false`. -/
theorem cancelOrder_unknown_order (e : HandledError)
    (h : strIncludes e.message "UNKNOWN_ORDER" = true) :
    cancelCallback (some e) = .ok true ∧ cancelCallback none = .ok false := by
  constructor
  · show (if strIncludes e.message "UNKNOWN_ORDER" = true
        then Except.ok true else Except.error e) = Except.ok true
    rw [if_pos h]
  · rfl

/-- C4 witness: the cancel law applied to the concrete Binance failure
message for an unknown order. -/
theorem cancelOrder_unknown_order_witness :
    cancelCallback (some ⟨"Error -2011: UNKNOWN_ORDER", false⟩) = .ok true
    ∧ cancelCallback none = .ok false :=
  cancelOrder_unknown_order ⟨"Error -2011: UNKNOWN_ORDER", false⟩ (by decide)

/-- C5: `getOrder` aggregates the fills of the requested order with the
incremental weighted-average price `(price * amount + fillPrice * fillQty) /
(fillQty + amount)` followed by `amount += fillQty`, summing commissions per
fee currency; on the two fills `(100, 1, 0.1 X)` and `(102, 1, 0.1 X)` it
yields amount 2, price 101 and fees `{X: 0.2}`. -/
theorem getOrder_aggregation :
    (∀ (st : OrderAgg) (f : Fill),
      (aggStep st f).price
          = (st.price * st.amount + f.price * f.qty) / (f.qty + st.amount)
      ∧ (aggStep st f).amount = st.amount + f.qty)
    ∧ getOrderAggregate "42"
        [ { orderId := "42", price := 100, qty := 1, commission := mkRat 1 10,
            commissionAsset := "X", time := 0 },
          { orderId := "42", price := 102, qty := 1, commission := mkRat 1 10,
            commissionAsset := "X", time := 0 } ]
        = .ok { price := 101, amount := 2, date := 0, fees := [("X", mkRat 2 10)] }
    ∧ (mkRat 1 10 : ℚ) = 1 / 10
    ∧ (mkRat 2 10 : ℚ) = 1 / 5
    ∧ getOrderAggregate "42" [] = .error "Trades not found" := by
  refine ⟨?_, by rfl, ?_, ?_, by rfl⟩
  · intro st f
    constructor
    · show qDiv (qAdd (qMul st.price st.amount) (qMul f.price f.qty)) (qAdd f.qty st.amount)
        = _
      rw [qDiv_eq, qAdd_eq, qAdd_eq, qMul_eq, qMul_eq]
    · show qAdd st.amount f.qty = _
      rw [qAdd_eq]
  · rw [Rat.mkRat_eq_divInt, Rat.divInt_eq_div]
    norm_num
  · rw [Rat.mkRat_eq_divInt, Rat.divInt_eq_div]
    norm_num

/-- C6: the order-status mapping of `checkOrder`: CANCELED, REJECTED and
EXPIRED are closed and unexecuted; NEW and PARTIALLY_FILLED are open with the
coerced `executedQty` as `filledAmount` (so `"0.5"` maps to the number 0.5);
FILLED is executed; any other status is thrown rather than returned. -/
theorem checkOrder_status_mapping :
    (∀ q : String,
      checkOrderStatus ⟨"CANCELED", q⟩ = .res false false none
      ∧ checkOrderStatus ⟨"REJECTED", q⟩ = .res false false none
      ∧ checkOrderStatus ⟨"EXPIRED", q⟩ = .res false false none
      ∧ checkOrderStatus ⟨"NEW", q⟩ = .res false true (some (jsToNumberChars q.toList))
      ∧ checkOrderStatus ⟨"PARTIALLY_FILLED", q⟩
          = .res false true (some (jsToNumberChars q.toList))
      ∧ checkOrderStatus ⟨"FILLED", q⟩ = .res true false none)
    ∧ checkOrderStatus ⟨"PARTIALLY_FILLED", "0.5"⟩
        = .res false true (some (.num (mkRat 1 2)))
    ∧ (mkRat 1 2 : ℚ) = 1 / 2
    ∧ ∀ st q : String,
        st ∉ ["CANCELED", "REJECTED", "EXPIRED", "NEW", "PARTIALLY_FILLED", "FILLED"] →
        checkOrderStatus ⟨st, q⟩ = .thrown st := by
  refine ⟨?_, by decide, ?_, ?_⟩
  · intro q
    refine ⟨?_, ?_, ?_, ?_, ?_, ?_⟩ <;> simp [checkOrderStatus]
  · rw [Rat.mkRat_eq_divInt, Rat.divInt_eq_div]
    norm_num
  · intro st q hst
    simp only [List.mem_cons, List.not_mem_nil, or_false] at hst
    push_neg at hst
    obtain ⟨h1, h2, h3, h4, h5, h6⟩ := hst
    have hA : ¬((⟨st, q⟩ : QueryOrderData).status = "CANCELED"
        ∨ (⟨st, q⟩ : QueryOrderData).status = "REJECTED"
        ∨ (⟨st, q⟩ : QueryOrderData).status = "EXPIRED") := by
      show ¬(st = "CANCELED" ∨ st = "REJECTED" ∨ st = "EXPIRED")
      push_neg
      exact ⟨h1, h2, h3⟩
    have hB : ¬((⟨st, q⟩ : QueryOrderData).status = "NEW"
        ∨ (⟨st, q⟩ : QueryOrderData).status = "PARTIALLY_FILLED") := by
      show ¬(st = "NEW" ∨ st = "PARTIALLY_FILLED")
      push_neg
      exact ⟨h4, h5⟩
    have hC : ¬((⟨st, q⟩ : QueryOrderData).status = "FILLED") := h6
    rw [checkOrderStatus, if_neg hA, if_neg hB, if_neg hC]

/-- C6 witness: the mapping applied to the partially filled scenario and to
the unrecognized status `PENDING_CANCEL`. -/
theorem checkOrder_status_mapping_witness :
    checkOrderStatus ⟨"NEW", "0"⟩ = .res false true (some (jsToNumberChars "0".toList))
    ∧ checkOrderStatus ⟨"PENDING_CANCEL", "0"⟩ = .thrown "PENDING_CANCEL" :=
  ⟨((checkOrder_status_mapping.1 "0").2.2.2.1),
   checkOrder_status_mapping.2.2.2 "PENDING_CANCEL" "0" (by decide)⟩

/-- C7: `getPortfolio` does not normalize missing or `NaN` balances to 0 —
it throws.  A balance whose `free` field parses to `NaN` reaches the
`assetAmount = 0` branch, which assigns to a `const` and therefore throws a
`TypeError`; a missing balance entry makes `_.find` return `undefined`, so
reading `.free` throws.  A well-formed response is returned normally. -/
theorem getPortfolio_crashes :
    setBalance "BTC" "USDT" [⟨"BTC", "abc"⟩, ⟨"USDT", "1.0"⟩]
      = .error (.typeError "Assignment to constant variable")
    ∧ setBalance "BTC" "USDT" [⟨"USDT", "1.0"⟩]
      = .error (.typeError "Cannot read property free of undefined")
    ∧ setBalance "BTC" "USDT" [⟨"BTC", "0.5"⟩, ⟨"USDT", "1.0"⟩]
      = .ok [("BTC", .num (mkRat 1 2)), ("USDT", .num 1)] :=
  ⟨by rfl, by rfl, by rfl⟩

end Binance
